import Mathlib

/-!
# Spatial hashing: k nearest neighbours on a uniform grid

A shallow embedding of `src/main.cpp`.

Modelling conventions
* `float` is IEEE 754 binary32 with round to nearest, ties to even, evaluated operation
  by operation (no fused multiply-add, no excess precision). A finite value is the
  rational number it denotes; intermediate results live in `F32`, which adds the two
  infinities and NaN. The sign of zero is not tracked: it can only change the sign of an
  infinite quotient, and every infinite quotient of the program is converted to `int`
  right away, which is undefined either way.
* The positions and velocities the program stores (`sf::Vector2f`) are finite: pairs of
  rationals. Operations round their results, so a stored value is always representable.
* A conversion `static_cast<int>` of a value outside the range of `int` is undefined
  behaviour; functions that reach it return `none`.
* Cell coordinates are integer-valued floats and are represented by their integer value;
  the float addition `cell.x + dx` rounds (`cellAdd`).
* `std::unordered_map` is an association list with pairwise distinct keys; only
  `find`, `size`, `clear` and `operator[]` are used by the program, none of which depends
  on the iteration order of the map. Keys are compared with `operator==`.
* `int k` is an `Int`; where the program compares it with a `size_t` the usual
  conversion modulo `2 ^ 64` is explicit (`toSizeT`).
* `std::sort` is a comparison sort; it is embedded as insertion sort driven by the
  program's strict comparator.
-/

namespace SpatialHash

/-! ## Single precision arithmetic -/

/-- Rounding of a rational to the nearest integer, ties to even. -/
def roundHalfEven (x : ℚ) : Int :=
  if x - ⌊x⌋ < 1 / 2 then ⌊x⌋
  else if 1 / 2 < x - ⌊x⌋ then ⌊x⌋ + 1
  else if ⌊x⌋ % 2 = 0 then ⌊x⌋ else ⌊x⌋ + 1

/-- The number of binary digits of `n`, computed with at most `fuel` halvings. -/
def bitLength : Nat → Nat → Nat
  | 0, _ => 0
  | fuel + 1, n => if n = 0 then 0 else bitLength fuel (n / 2) + 1

/-- The binade of a positive rational: the `e` with `2 ^ e ≤ q < 2 ^ (e + 1)`
(see `ilog2_spec`). -/
def ilog2 (q : ℚ) : Int :=
  if (2 : ℚ) ^ ((bitLength q.num.natAbs q.num.natAbs : Int) - (bitLength q.den q.den : Int)) ≤ q
  then (bitLength q.num.natAbs q.num.natAbs : Int) - (bitLength q.den q.den : Int)
  else (bitLength q.num.natAbs q.num.natAbs : Int) - (bitLength q.den q.den : Int) - 1

/-- The unit in the last place of binary32 at `q ≠ 0`: 24 significant bits, and the
fixed spacing `2 ^ (-149)` below the smallest normal number `2 ^ (-126)`. -/
def ulp (q : ℚ) : ℚ :=
  2 ^ (max (ilog2 |q|) (-126) - 23)

/-- Rounding of a rational to binary32 precision (nearest, ties to even), before the
overflow check. -/
def roundRat (q : ℚ) : ℚ :=
  if q = 0 then 0 else (roundHalfEven (q / ulp q) : ℚ) * ulp q

/-- The largest finite binary32 value, `(2 ^ 24 - 1) * 2 ^ 104`. -/
def maxFinite : ℚ := 2 ^ 128 - 2 ^ 104

/-- A binary32 value: finite, infinite with a sign, or NaN. -/
inductive F32 where
  | fin (value : ℚ)
  | inf (negative : Bool)
  | nan
deriving DecidableEq

/-- The binary32 result of an operation whose exact result is `q`: rounded, and infinite
when the rounded value exceeds the largest finite one. -/
def F32.ofRat (q : ℚ) : F32 :=
  if maxFinite < |roundRat q| then F32.inf (decide (q < 0)) else F32.fin (roundRat q)

/-- Float negation. -/
def F32.neg : F32 → F32
  | F32.fin a => F32.fin (-a)
  | F32.inf n => F32.inf (!n)
  | F32.nan => F32.nan

/-- Float addition. -/
def F32.add : F32 → F32 → F32
  | F32.fin a, F32.fin b => F32.ofRat (a + b)
  | F32.fin _, F32.inf n => F32.inf n
  | F32.inf n, F32.fin _ => F32.inf n
  | F32.inf n, F32.inf m => if n = m then F32.inf n else F32.nan
  | _, _ => F32.nan

/-- Float subtraction. -/
def F32.sub (x y : F32) : F32 := F32.add x (F32.neg y)

/-- Float multiplication. -/
def F32.mul : F32 → F32 → F32
  | F32.fin a, F32.fin b => F32.ofRat (a * b)
  | F32.fin a, F32.inf n => if a = 0 then F32.nan else F32.inf (xor n (decide (a < 0)))
  | F32.inf n, F32.fin b => if b = 0 then F32.nan else F32.inf (xor n (decide (b < 0)))
  | F32.inf n, F32.inf m => F32.inf (xor n m)
  | _, _ => F32.nan

/-- Float division. A finite non-zero value divided by zero is infinite (its sign also
depends on the sign of the zero, which is not tracked), zero by zero is NaN. -/
def F32.div : F32 → F32 → F32
  | F32.fin a, F32.fin b =>
    if b = 0 then (if a = 0 then F32.nan else F32.inf (decide (a < 0))) else F32.ofRat (a / b)
  | F32.fin _, F32.inf _ => F32.fin 0
  | F32.inf n, F32.fin b => F32.inf (xor n (decide (b < 0)))
  | _, _ => F32.nan

/-- The library function `floor` on floats: exact, and the identity on infinities and
NaN. -/
def F32.floor : F32 → F32
  | F32.fin a => F32.fin ⌊a⌋
  | x => x

/-- The comparison `x < y` on floats; false when an operand is NaN. -/
def F32.lt : F32 → F32 → Bool
  | F32.fin a, F32.fin b => decide (a < b)
  | F32.fin _, F32.inf m => !m
  | F32.inf n, F32.fin _ => n
  | F32.inf n, F32.inf m => n && !m
  | _, _ => false

/-- The comparison `x <= y` on floats; false when an operand is NaN. -/
def F32.le : F32 → F32 → Bool
  | F32.fin a, F32.fin b => decide (a ≤ b)
  | F32.fin _, F32.inf m => !m
  | F32.inf n, F32.fin _ => n
  | F32.inf n, F32.inf m => n || !m
  | _, _ => false

/-- The conversion `static_cast<int>(x)`: truncation toward zero; undefined (`none`) for
NaN, infinities and values outside `[-2 ^ 31, 2 ^ 31)`. -/
def F32.toInt : F32 → Option Int
  | F32.fin a =>
    if -2 ^ 31 ≤ (if 0 ≤ a then ⌊a⌋ else ⌈a⌉) ∧ (if 0 ≤ a then ⌊a⌋ else ⌈a⌉) < 2 ^ 31
    then some (if 0 ≤ a then ⌊a⌋ else ⌈a⌉) else none
  | _ => none

/-- The integer square root by binary digits: `isqrtAux n b acc` tries the bits below
`b` on top of `acc`. -/
def isqrtAux (n : Nat) : Nat → Nat → Nat
  | 0, acc => acc
  | b + 1, acc =>
    if (acc + 2 ^ b) * (acc + 2 ^ b) ≤ n then isqrtAux n b (acc + 2 ^ b) else isqrtAux n b acc

/-- The integer square root, `⌊√n⌋` (see `isqrt_spec`). -/
def isqrt (n : Nat) : Nat := isqrtAux n (bitLength n n) 0

/-- The correctly rounded binary32 square root of a positive rational `q`. With
`2 ^ h ≤ √q < 2 ^ (h + 1)` the result is a multiple `m` of `2 ^ (h - 23)`, where `m` is
`√(q / 4 ^ (h - 23))` rounded to the nearest integer, ties to even. -/
def sqrtRound (q : ℚ) : ℚ :=
  let h : Int := ilog2 q / 2
  let t : ℚ := q / (2 ^ (h - 23) * 2 ^ (h - 23))
  let m : Nat := isqrt ⌊t⌋.toNat
  let half : ℚ := ((m : ℚ) + 1 / 2) * ((m : ℚ) + 1 / 2)
  let r : Nat := if t < half then m else if half < t then m + 1
    else if m % 2 = 0 then m else m + 1
  (r : ℚ) * 2 ^ (h - 23)

/-- The library function `sqrt` on floats. -/
def F32.sqrt : F32 → F32
  | F32.fin a => if a < 0 then F32.nan else if a = 0 then F32.fin 0 else F32.fin (sqrtRound a)
  | F32.inf n => if n then F32.nan else F32.inf false
  | F32.nan => F32.nan

/-- The value a float variable holds, for the finite values the program stores. -/
def F32.toRat : F32 → ℚ
  | F32.fin a => a
  | _ => 0

/-- The library function `std::clamp(v, lo, hi)`: `(v < lo) ? lo : (hi < v) ? hi : v`. -/
def F32.clamp (v lo hi : F32) : F32 :=
  if F32.lt v lo then lo else if F32.lt hi v then hi else v

/-- A float that is a non-negative finite value or positive infinity. -/
def F32.NonNeg (x : F32) : Prop :=
  (∃ r : ℚ, 0 ≤ r ∧ x = F32.fin r) ∨ x = F32.inf false

/-! ## Data model -/

/-- The SFML vector type `sf::Vector2f`, holding finite values. -/
abbrev Vector2f := ℚ × ℚ

/-- A cell coordinate: the value returned by `getCell`, a pair of integer-valued
floats. -/
abbrev Cell := Int × Int

/-- The struct `MovingPoint` (main.cpp:11-16). The colour is presentation only and is
left out. -/
structure MovingPoint where
  position : Vector2f
  velocity : Vector2f
deriving DecidableEq

/-- The map type `unordered_map<sf::Vector2f, vector<sf::Vector2f>, CellHash>`. -/
abbrev Grid := List (Cell × List Vector2f)

/-- The functor `CellHash::operator()` (main.cpp:18-24): the bitwise exclusive or of the
`std::hash<int>` values of the two coordinates. `std::hash<int>` is a library function,
taken as the parameter `hashInt`. -/
def CellHash (hashInt : Int → Nat) (c : Cell) : Nat :=
  hashInt c.1 ^^^ hashInt c.2

/-- The conversion of an `int` to `float`, as in the construction of the `sf::Vector2f`
that `getCell` returns; the result is integer-valued and is kept as an integer. -/
def intToFloat (n : Int) : Int := ⌊roundRat (n : ℚ)⌋

/-- One axis of `getCell`: `static_cast<int>(floor(x / cellSize))`, stored as a float. -/
def cellCoordinate (x cellSize : ℚ) : Option Int :=
  ((F32.floor (F32.div (F32.fin x) (F32.fin cellSize))).toInt).map intToFloat

/-- The function `getCell` (main.cpp:27-32). -/
def getCell (point : Vector2f) (cellSize : ℚ) : Option Cell :=
  match cellCoordinate point.1 cellSize, cellCoordinate point.2 cellSize with
  | some cx, some cy => some (cx, cy)
  | _, _ => none

/-- The function `distance` (main.cpp:35-40). -/
def distance (a b : Vector2f) : F32 :=
  F32.sqrt (F32.add
    (F32.mul (F32.sub (F32.fin a.1) (F32.fin b.1)) (F32.sub (F32.fin a.1) (F32.fin b.1)))
    (F32.mul (F32.sub (F32.fin a.2) (F32.fin b.2)) (F32.sub (F32.fin a.2) (F32.fin b.2))))

/-- The comparator of the `sort` call (main.cpp:75-76),
`distance(a, point) < distance(b, point)`. -/
def distanceLess (point a b : Vector2f) : Bool :=
  F32.lt (distance a point) (distance b point)

/-- The squared Euclidean distance of the specification, `dx² + dy²` in exact
arithmetic; the Euclidean distance is its real square root. -/
def euclideanSq (a b : Vector2f) : ℚ :=
  (a.1 - b.1) * (a.1 - b.1) + (a.2 - b.2) * (a.2 - b.2)

/-! ## The grid -/

/-- The lookup `grid.find(c)`: the bucket stored under `c`, if there is one. -/
def Grid.find : Grid → Cell → Option (List Vector2f)
  | [], _ => none
  | (c', bucket) :: rest, c => if c' = c then some bucket else Grid.find rest c

/-- The number of keys, `grid.size()`. -/
def Grid.size (grid : Grid) : Nat := grid.length

/-- The call `grid.clear()`. -/
def Grid.clear (_grid : Grid) : Grid := []

/-- The statement `grid[c].push_back(q)` (main.cpp:144): `operator[]` creates an empty
bucket when `c` is absent, then `q` is appended to the bucket of `c`. -/
def Grid.pushBack : Grid → Cell → Vector2f → Grid
  | [], c, q => [(c, [q])]
  | (c', bucket) :: rest, c, q =>
    if c' = c then (c', bucket ++ [q]) :: rest else (c', bucket) :: Grid.pushBack rest c q

/-- All positions stored in the grid, bucket after bucket. -/
def Grid.positions (grid : Grid) : List Vector2f :=
  grid.flatMap (fun entry => entry.2)

/-- The total number of positions stored in all buckets. -/
def Grid.total (grid : Grid) : Nat :=
  (grid.map (fun entry => entry.2.length)).sum

/-- Well-formedness of the map: keys are pairwise distinct. -/
def Grid.WF (grid : Grid) : Prop :=
  (grid.map (fun entry => entry.1)).Nodup

/-- The bucket of a cell, empty when the cell has no entry. -/
def Grid.bucket (grid : Grid) (c : Cell) : List Vector2f :=
  (grid.find c).getD []

/-- Every bucket is non-empty and holds only positions of its own cell. -/
def Grid.Bucketed (cellSize : ℚ) (grid : Grid) : Prop :=
  ∀ entry ∈ grid, entry.2 ≠ [] ∧ ∀ q ∈ entry.2, getCell q cellSize = some entry.1

/-! ## The neighbour query -/

/-- Conversion of an `int` to `size_t`, as in `neighbors.size() >= k`. -/
def toSizeT (k : Int) : Nat := (k % 2 ^ 64).toNat

/-- The values taken by `dx` and `dy` in `for (int dx = -s; dx <= s; ++dx)`. -/
def offsets (s : Nat) : List Int :=
  (List.range (2 * s + 1)).map (fun (i : Nat) => (i : Int) - (s : Int))

/-- The float addition `cell.x + dx` (main.cpp:56) of a cell coordinate and an `int`
offset converted to `float`; the sum of two integer-valued floats rounds to an
integer-valued float. -/
def cellAdd (v d : Int) : Int := ⌊roundRat ((v : ℚ) + ((intToFloat d : Int) : ℚ))⌋

/-- The cells visited by the two nested loops (main.cpp:52-56), in visiting order. -/
def squareCells (cell : Cell) (s : Nat) : List Cell :=
  (offsets s).flatMap (fun dx => (offsets s).map (fun dy => (cellAdd cell.1 dx, cellAdd cell.2 dy)))

/-- The cells of the `(2s+1) × (2s+1)` square around `cell` in exact integer arithmetic,
in the order of the two loops. -/
def exactSquare (cell : Cell) (s : Nat) : List Cell :=
  (offsets s).flatMap (fun dx => (offsets s).map (fun dy => (cell.1 + dx, cell.2 + dy)))

/-- The body of the cell loops (main.cpp:57-66): what one visited cell contributes. -/
def cellCandidates (point : Vector2f) (grid : Grid) (neighborCell : Cell) : List Vector2f :=
  match grid.find neighborCell with
  | some bucket => bucket.filter (fun neighbor => decide (neighbor ≠ point))
  | none => []

/-- One pass of the two nested cell loops (main.cpp:52-68) at radius `s`: every position
different from `point` found in a visited cell is pushed onto `neighbors`. -/
def scanSquare (point : Vector2f) (cell : Cell) (grid : Grid) (s : Nat)
    (neighbors : List Vector2f) : List Vector2f :=
  neighbors ++ (squareCells cell s).flatMap (cellCandidates point grid)

/-- The loop `for (int s = 1; s <= sqrt(grid.size()); s++)` (main.cpp:50-72), started at
radius `s` with the current contents of `neighbors`. For a non-negative integer `s` the
test `s <= sqrt(n)` is `s * s ≤ n` (see `loopTest_iff_sqrt`). The first argument bounds
the number of iterations; `neighborsFrom` passes enough of it (see `ringLoop_fuel`). -/
def ringLoop (point : Vector2f) (cell : Cell) (grid : Grid) (k : Int) :
    Nat → Nat → List Vector2f → List Vector2f
  | 0, _, neighbors => neighbors
  | fuel + 1, s, neighbors =>
    if s * s ≤ grid.size then
      let neighbors := scanSquare point cell grid s neighbors
      if toSizeT k ≤ neighbors.length then neighbors
      else ringLoop point cell grid k fuel (s + 1) []
    else neighbors

/-- Insertion of one element into a list sorted by the strict comparator `less`. -/
def sortInsert {α : Type} (less : α → α → Bool) (a : α) : List α → List α
  | [] => [a]
  | b :: rest => if less b a then b :: sortInsert less a rest else a :: b :: rest

/-- The call `sort(first, last, less)`, as insertion sort. -/
def sort {α : Type} (less : α → α → Bool) : List α → List α
  | [] => []
  | a :: rest => sortInsert less a (sort less rest)

/-- The body of `findKNearest` after the query cell is known (main.cpp:48-83): ring
loop, sort, truncation. -/
def neighborsFrom (point : Vector2f) (cell : Cell) (grid : Grid) (k : Int) :
    List Vector2f :=
  let neighbors := ringLoop point cell grid k (grid.size + 1) 1 []
  let neighbors := sort (distanceLess point) neighbors
  if toSizeT k < neighbors.length then neighbors.take (toSizeT k) else neighbors

/-- The function `findKNearest` (main.cpp:43-84); `none` when the conversion to `int`
in `getCell` is undefined. -/
def findKNearest (point : Vector2f) (grid : Grid) (k : Int) (cellSize : ℚ) :
    Option (List Vector2f) :=
  (getCell point cellSize).map (fun cell => neighborsFrom point cell grid k)

/-! ## The per-tick update -/

/-- One axis of `point.position += point.velocity * dt` (main.cpp:128): the float
product, then the float sum. -/
def rawCoordinate (x v dt : ℚ) : F32 :=
  F32.add (F32.fin x) (F32.mul (F32.fin v) (F32.fin dt))

/-- One axis of the motion step (main.cpp:128-141): `x += v * dt`, then, when the new
coordinate is below zero or above the bound, the velocity component is negated and the
coordinate clamped. Returns the new coordinate and velocity component. -/
def advanceAxis (x v dt bound : ℚ) : ℚ × ℚ :=
  if F32.lt (rawCoordinate x v dt) (F32.fin 0) || F32.lt (F32.fin bound) (rawCoordinate x v dt)
  then ((F32.clamp (rawCoordinate x v dt) (F32.fin 0) (F32.fin bound)).toRat, -v)
  else ((rawCoordinate x v dt).toRat, v)

/-- The motion step of one entity (main.cpp:128-141): forward Euler integration followed
by reflection on each axis. `width` and `height` are `window.getSize()` as floats. -/
def advance (dt width height : ℚ) (point : MovingPoint) : MovingPoint :=
  { position := ((advanceAxis point.position.1 point.velocity.1 dt width).1,
      (advanceAxis point.position.2 point.velocity.2 dt height).1),
    velocity := ((advanceAxis point.position.1 point.velocity.1 dt width).2,
      (advanceAxis point.position.2 point.velocity.2 dt height).2) }

/-- The update loop (main.cpp:125-145) over the remaining entities: each entity is
advanced in place and its new position is pushed into the grid. The state is the list
of entities already processed and the grid. -/
def tickLoop (dt width height cellSize : ℚ) :
    List MovingPoint × Grid → List MovingPoint → Option (List MovingPoint × Grid)
  | state, [] => some state
  | state, point :: rest =>
    match getCell (advance dt width height point).position cellSize with
    | none => none
    | some c =>
      tickLoop dt width height cellSize
        (state.1 ++ [advance dt width height point],
          state.2.pushBack c (advance dt width height point).position) rest

/-- The per-tick update (main.cpp:124-145): `grid.clear()` followed by the loop over all
entities. -/
def tick (dt width height cellSize : ℚ) (points : List MovingPoint) (grid : Grid) :
    Option (List MovingPoint × Grid) :=
  tickLoop dt width height cellSize ([], grid.clear) points

/-- Pushing a list of positions into a grid, each into the bucket of its cell. -/
def pushAll (cellSize : ℚ) : Grid → List Vector2f → Option Grid
  | grid, [] => some grid
  | grid, q :: rest =>
    match getCell q cellSize with
    | none => none
    | some c => pushAll cellSize (grid.pushBack c q) rest

/-- Rebuilding the grid from a list of positions over the previous grid: `grid.clear()`,
then every position is pushed into the bucket of its cell. -/
def rebuild (cellSize : ℚ) (grid : Grid) (positions : List Vector2f) : Option Grid :=
  pushAll cellSize grid.clear positions

/-! ## Properties of the single precision model -/

theorem bitLength_zero (fuel : Nat) : bitLength fuel 0 = 0 := by
  cases fuel <;> simp [bitLength]

theorem bitLength_bounds : ∀ (fuel n : Nat), n ≤ fuel → 0 < n →
    2 ^ (bitLength fuel n - 1) ≤ n ∧ n < 2 ^ bitLength fuel n := by
  intro fuel
  induction fuel with
  | zero => intro n h1 h2; omega
  | succ f ih =>
    intro n hle hpos
    have hne : n ≠ 0 := by omega
    simp only [bitLength, hne, if_false, Nat.add_sub_cancel]
    by_cases hhalf : n / 2 = 0
    · have h1 : n = 1 := by omega
      subst h1
      simp [bitLength_zero]
    · have hih := ih (n / 2) (by omega) (by omega)
      have hb : 1 ≤ bitLength f (n / 2) := by
        by_contra hcon
        have h0 : bitLength f (n / 2) = 0 := by omega
        rw [h0] at hih
        omega
      obtain ⟨b, hb'⟩ : ∃ b, bitLength f (n / 2) = b + 1 := ⟨bitLength f (n / 2) - 1, by omega⟩
      rw [hb'] at hih ⊢
      simp only [Nat.add_sub_cancel] at hih
      rw [pow_succ] at hih ⊢
      rw [pow_succ]
      omega

/-- The binade returned by `ilog2` contains the argument. -/
theorem ilog2_spec (q : ℚ) (hq : 0 < q) :
    (2 : ℚ) ^ ilog2 q ≤ q ∧ q < (2 : ℚ) ^ (ilog2 q + 1) := by
  have hnum : 0 < q.num := Rat.num_pos.mpr hq
  have hden : 0 < q.den := q.den_pos
  have ha : 0 < q.num.natAbs := Int.natAbs_pos.mpr hnum.ne'
  obtain ⟨ha1, ha2⟩ := bitLength_bounds q.num.natAbs q.num.natAbs (le_refl _) ha
  obtain ⟨hb1, hb2⟩ := bitLength_bounds q.den q.den (le_refl _) hden
  have hapos : 1 ≤ bitLength q.num.natAbs q.num.natAbs := by
    by_contra hcon
    have h0 : bitLength q.num.natAbs q.num.natAbs = 0 := by omega
    rw [h0] at ha2
    omega
  have hbpos : 1 ≤ bitLength q.den q.den := by
    by_contra hcon
    have h0 : bitLength q.den q.den = 0 := by omega
    rw [h0] at hb2
    omega
  obtain ⟨la, hla⟩ : ∃ la, bitLength q.num.natAbs q.num.natAbs = la + 1 :=
    ⟨bitLength q.num.natAbs q.num.natAbs - 1, by omega⟩
  obtain ⟨lb, hlb⟩ : ∃ lb, bitLength q.den q.den = lb + 1 :=
    ⟨bitLength q.den q.den - 1, by omega⟩
  rw [hla] at ha1 ha2
  rw [hlb] at hb1 hb2
  simp only [Nat.add_sub_cancel] at ha1 hb1
  have hqa : q * (q.den : ℚ) = (q.num.natAbs : ℚ) := by
    have h2 := Rat.num_div_den q
    have h3 : (q.den : ℚ) ≠ 0 := by exact_mod_cast hden.ne'
    have h4 : (q.num : ℚ) = q * (q.den : ℚ) := by
      rw [← h2]
      field_simp
      rw [Rat.num_div_den q]
    rw [← h4]
    have h5 : (q.num.natAbs : Int) = q.num := Int.natAbs_of_nonneg hnum.le
    calc (q.num : ℚ) = ((q.num.natAbs : Int) : ℚ) := by rw [h5]
      _ = (q.num.natAbs : ℚ) := Int.cast_natCast _
  have hdq : (0 : ℚ) < (q.den : ℚ) := by exact_mod_cast hden
  have two_ne : (2 : ℚ) ≠ 0 := by norm_num
  -- bounds on numerator and denominator, in ℚ
  have A1 : (2 : ℚ) ^ (la : Int) ≤ (q.num.natAbs : ℚ) := by
    rw [zpow_natCast]; exact_mod_cast ha1
  have A2 : (q.num.natAbs : ℚ) < (2 : ℚ) ^ ((la : Int) + 1) := by
    have : (2 : ℚ) ^ ((la : Int) + 1) = ((2 ^ (la + 1) : Nat) : ℚ) := by
      rw [show ((la : Int) + 1) = ((la + 1 : Nat) : Int) by push_cast; ring, zpow_natCast]
      push_cast; ring
    rw [this]; exact_mod_cast ha2
  have B1 : (2 : ℚ) ^ (lb : Int) ≤ (q.den : ℚ) := by
    rw [zpow_natCast]; exact_mod_cast hb1
  have B2 : (q.den : ℚ) < (2 : ℚ) ^ ((lb : Int) + 1) := by
    have : (2 : ℚ) ^ ((lb : Int) + 1) = ((2 ^ (lb + 1) : Nat) : ℚ) := by
      rw [show ((lb : Int) + 1) = ((lb + 1 : Nat) : Int) by push_cast; ring, zpow_natCast]
      push_cast; ring
    rw [this]; exact_mod_cast hb2
  have he0 : ((bitLength q.num.natAbs q.num.natAbs : Int) - (bitLength q.den q.den : Int))
      = (la : Int) - (lb : Int) := by
    rw [hla, hlb]; push_cast; ring
  -- the two outer bounds
  have upper : q < (2 : ℚ) ^ ((la : Int) - (lb : Int) + 1) := by
    have h1 : (2 : ℚ) ^ ((la : Int) - (lb : Int) + 1) * (2 : ℚ) ^ (lb : Int)
        = (2 : ℚ) ^ ((la : Int) + 1) := by
      rw [← zpow_add₀ two_ne]; congr 1; ring
    have hpos : (0 : ℚ) < (2 : ℚ) ^ ((la : Int) - (lb : Int) + 1) := zpow_pos (by norm_num) _
    have h2 : q * (q.den : ℚ) < (2 : ℚ) ^ ((la : Int) - (lb : Int) + 1) * (q.den : ℚ) := by
      calc q * (q.den : ℚ) = (q.num.natAbs : ℚ) := hqa
        _ < (2 : ℚ) ^ ((la : Int) + 1) := A2
        _ = (2 : ℚ) ^ ((la : Int) - (lb : Int) + 1) * (2 : ℚ) ^ (lb : Int) := h1.symm
        _ ≤ (2 : ℚ) ^ ((la : Int) - (lb : Int) + 1) * (q.den : ℚ) :=
            mul_le_mul_of_nonneg_left B1 hpos.le
    exact lt_of_mul_lt_mul_right h2 hdq.le
  have lower : (2 : ℚ) ^ ((la : Int) - (lb : Int) - 1) < q := by
    have h1 : (2 : ℚ) ^ ((la : Int) - (lb : Int) - 1) * (2 : ℚ) ^ ((lb : Int) + 1)
        = (2 : ℚ) ^ (la : Int) := by
      rw [← zpow_add₀ two_ne]; congr 1; ring
    have hpos : (0 : ℚ) < (2 : ℚ) ^ ((la : Int) - (lb : Int) - 1) := zpow_pos (by norm_num) _
    have h2 : (2 : ℚ) ^ ((la : Int) - (lb : Int) - 1) * (q.den : ℚ) < q * (q.den : ℚ) := by
      calc (2 : ℚ) ^ ((la : Int) - (lb : Int) - 1) * (q.den : ℚ)
          < (2 : ℚ) ^ ((la : Int) - (lb : Int) - 1) * (2 : ℚ) ^ ((lb : Int) + 1) :=
            mul_lt_mul_of_pos_left B2 hpos
        _ = (2 : ℚ) ^ (la : Int) := h1
        _ ≤ (q.num.natAbs : ℚ) := A1
        _ = q * (q.den : ℚ) := hqa.symm
    exact lt_of_mul_lt_mul_right h2 hdq.le
  simp only [ilog2, he0]
  split
  next h => exact ⟨h, upper⟩
  next h =>
    refine ⟨lower.le, ?_⟩
    rw [sub_add_cancel]
    exact not_le.mp h

theorem isqrtAux_spec (n : Nat) : ∀ (b acc : Nat),
    acc * acc ≤ n → n < (acc + 2 ^ b) * (acc + 2 ^ b) →
    isqrtAux n b acc * isqrtAux n b acc ≤ n ∧
      n < (isqrtAux n b acc + 1) * (isqrtAux n b acc + 1) := by
  intro b
  induction b with
  | zero =>
    intro acc h1 h2
    simpa [isqrtAux] using ⟨h1, h2⟩
  | succ b ih =>
    intro acc h1 h2
    simp only [isqrtAux]
    split
    next h =>
      apply ih _ h
      have : acc + 2 ^ b + 2 ^ b = acc + 2 ^ (b + 1) := by rw [pow_succ]; ring
      rw [this]
      exact h2
    next h => exact ih _ h1 (not_le.mp h)

/-- The function `isqrt` is the integer square root. -/
theorem isqrt_spec (n : Nat) : isqrt n * isqrt n ≤ n ∧ n < (isqrt n + 1) * (isqrt n + 1) := by
  apply isqrtAux_spec n _ 0 (Nat.zero_le _)
  simp only [Nat.zero_add]
  rcases Nat.eq_zero_or_pos n with h | h
  · subst h
    simp [bitLength_zero]
  · have h2 := (bitLength_bounds n n (le_refl _) h).2
    have h3 : 1 ≤ 2 ^ bitLength n n := Nat.one_le_two_pow
    calc n < 2 ^ bitLength n n := h2
      _ = 2 ^ bitLength n n * 1 := (Nat.mul_one _).symm
      _ ≤ 2 ^ bitLength n n * 2 ^ bitLength n n := Nat.mul_le_mul_left _ h3

theorem roundHalfEven_intCast (m : Int) : roundHalfEven (m : ℚ) = m := by
  simp [roundHalfEven]

theorem roundHalfEven_nonneg (x : ℚ) (hx : 0 ≤ x) : 0 ≤ roundHalfEven x := by
  have h : 0 ≤ ⌊x⌋ := Int.floor_nonneg.mpr hx
  simp only [roundHalfEven]
  split
  · exact h
  · split
    · omega
    · split <;> omega

theorem ulp_pos (q : ℚ) : 0 < ulp q := zpow_pos (by norm_num) _

theorem roundRat_nonneg (q : ℚ) (hq : 0 ≤ q) : 0 ≤ roundRat q := by
  simp only [roundRat]
  split
  · exact le_refl _
  · apply mul_nonneg _ (ulp_pos q).le
    exact_mod_cast roundHalfEven_nonneg _ (div_nonneg hq (ulp_pos q).le)

/-- A value that is an integer multiple of its unit in the last place is not changed by
rounding. -/
theorem roundRat_of_multiple (q : ℚ) (m : Int) (h : q / ulp q = (m : ℚ)) : roundRat q = q := by
  simp only [roundRat]
  split
  next h0 => exact h0.symm
  next h0 =>
    rw [h, roundHalfEven_intCast, ← h]
    exact div_mul_cancel₀ q (ulp_pos q).ne'

/-- Integers of magnitude at most `2 ^ 24` are binary32 values. -/
theorem roundRat_intCast (n : Int) (hn : |n| ≤ 2 ^ 24) : roundRat (n : ℚ) = (n : ℚ) := by
  rcases eq_or_ne n 0 with h0 | h0
  · subst h0; simp [roundRat]
  have habs : (0 : ℚ) < |(n : ℚ)| := abs_pos.mpr (by exact_mod_cast h0)
  obtain ⟨hlo, hhi⟩ := ilog2_spec |(n : ℚ)| habs
  have hone : (1 : ℚ) ≤ |(n : ℚ)| := by
    have : (1 : Int) ≤ |n| := Int.one_le_abs h0
    exact_mod_cast this
  have hup : |(n : ℚ)| ≤ 2 ^ (24 : Int) := by
    have : ((|n| : Int) : ℚ) ≤ ((2 ^ 24 : Int) : ℚ) := by exact_mod_cast hn
    rw [Int.cast_abs] at this
    norm_num at this ⊢
    exact this
  have he0 : 0 ≤ ilog2 |(n : ℚ)| := by
    by_contra hcon
    have hneg : ilog2 |(n : ℚ)| + 1 ≤ 0 := by omega
    have : (2 : ℚ) ^ (ilog2 |(n : ℚ)| + 1) ≤ (2 : ℚ) ^ (0 : Int) :=
      zpow_le_zpow_right₀ (by norm_num) hneg
    rw [zpow_zero] at this
    linarith
  have he24 : ilog2 |(n : ℚ)| ≤ 24 := by
    have : (2 : ℚ) ^ ilog2 |(n : ℚ)| ≤ (2 : ℚ) ^ (24 : Int) := hlo.trans hup
    exact (zpow_le_zpow_iff_right₀ (by norm_num : (1 : ℚ) < 2)).mp this
  have hmax : max (ilog2 |(n : ℚ)|) (-126) = ilog2 |(n : ℚ)| := max_eq_left (by omega)
  have hulp : ulp (n : ℚ) = 2 ^ (ilog2 |(n : ℚ)| - 23) := by
    simp only [ulp, hmax]
  rcases lt_or_eq_of_le he24 with hlt | heq
  · -- the unit is `2 ^ (-j)`: every integer is a multiple
    obtain ⟨j, hj⟩ : ∃ j : Nat, ilog2 |(n : ℚ)| - 23 = -(j : Int) :=
      ⟨(23 - ilog2 |(n : ℚ)|).toNat, by omega⟩
    apply roundRat_of_multiple (n : ℚ) (n * 2 ^ j)
    rw [hulp, hj, zpow_neg, zpow_natCast]
    push_cast
    field_simp
  · -- the binade of `2 ^ 24`: the only integer in range is `± 2 ^ 24`
    rw [heq] at hlo
    have habs : |(n : ℚ)| = 2 ^ (24 : Int) := le_antisymm hup hlo
    have hn2 : ∃ m : Int, n = 2 * m := by
      have h1 : |n| = 2 ^ 24 := by
        have : ((|n| : Int) : ℚ) = ((2 ^ 24 : Int) : ℚ) := by
          rw [Int.cast_abs, habs]; norm_num
        exact_mod_cast this
      rcases abs_eq (by norm_num : (0 : Int) ≤ 2 ^ 24) |>.mp h1 with h | h
      · exact ⟨2 ^ 23, by rw [h]; norm_num⟩
      · exact ⟨-2 ^ 23, by rw [h]; norm_num⟩
    obtain ⟨m, hm⟩ := hn2
    apply roundRat_of_multiple (n : ℚ) m
    rw [hulp, heq, hm]
    norm_num

theorem intToFloat_eq (n : Int) (hn : |n| ≤ 2 ^ 24) : intToFloat n = n := by
  simp only [intToFloat, roundRat_intCast n hn, Int.floor_intCast]

/-- The float addition of a cell coordinate and an offset is exact while the operands
and the sum stay within `2 ^ 24` in magnitude. -/
theorem cellAdd_eq (v d : Int) (hd : |d| ≤ 2 ^ 24) (hsum : |v + d| ≤ 2 ^ 24) :
    cellAdd v d = v + d := by
  simp only [cellAdd, intToFloat_eq d hd]
  have h : ((v : ℚ) + (d : ℚ)) = ((v + d : Int) : ℚ) := by push_cast; ring
  rw [h, roundRat_intCast (v + d) hsum, Int.floor_intCast]

/-! ## Order and distance -/

theorem F32.ofRat_cases (q : ℚ) :
    F32.ofRat q = F32.fin (roundRat q) ∨ F32.ofRat q = F32.inf (decide (q < 0)) := by
  simp only [F32.ofRat]
  split
  · right; rfl
  · left; rfl

theorem F32.ofRat_nonNeg (q : ℚ) (hq : 0 ≤ q) : (F32.ofRat q).NonNeg := by
  rcases F32.ofRat_cases q with h | h
  · left; exact ⟨roundRat q, roundRat_nonneg q hq, h⟩
  · right
    rw [h]
    have : ¬ q < 0 := not_lt.mpr hq
    simp [this]

theorem F32.mul_self_nonNeg (x : F32) (hx : x ≠ F32.nan) : (F32.mul x x).NonNeg := by
  cases x with
  | fin a => exact F32.ofRat_nonNeg _ (mul_self_nonneg a)
  | inf n => right; simp [F32.mul]
  | nan => exact absurd rfl hx

theorem F32.add_nonNeg (x y : F32) (hx : x.NonNeg) (hy : y.NonNeg) : (F32.add x y).NonNeg := by
  rcases hx with ⟨a, ha, rfl⟩ | rfl <;> rcases hy with ⟨b, hb, rfl⟩ | rfl
  · exact F32.ofRat_nonNeg _ (add_nonneg ha hb)
  · right; rfl
  · right; rfl
  · right; simp [F32.add]

theorem F32.sqrt_ne_nan (x : F32) (hx : x.NonNeg) : F32.sqrt x ≠ F32.nan := by
  rcases hx with ⟨a, ha, rfl⟩ | rfl
  · have : ¬ a < 0 := not_lt.mpr ha
    simp only [F32.sqrt, this, if_false]
    split <;> simp
  · simp [F32.sqrt]

theorem F32.sub_fin_ne_nan (a b : ℚ) : F32.sub (F32.fin a) (F32.fin b) ≠ F32.nan := by
  simp only [F32.sub, F32.neg, F32.add]
  rcases F32.ofRat_cases (a + -b) with h | h <;> rw [h] <;> simp

/-- The distance computed by the program is never NaN (for finite arguments). -/
theorem distance_ne_nan (a b : Vector2f) : distance a b ≠ F32.nan := by
  simp only [distance]
  apply F32.sqrt_ne_nan
  apply F32.add_nonNeg
  · exact F32.mul_self_nonNeg _ (F32.sub_fin_ne_nan _ _)
  · exact F32.mul_self_nonNeg _ (F32.sub_fin_ne_nan _ _)

theorem F32.le_of_lt_true (x y : F32) (h : F32.lt x y = true) : F32.le x y = true := by
  rcases x with a | (_ | _) | _ <;> rcases y with b | (_ | _) | _ <;>
    simp_all [F32.lt, F32.le]
  exact LT.lt.le h

theorem F32.le_of_lt_false (x y : F32) (hx : x ≠ F32.nan) (hy : y ≠ F32.nan)
    (h : F32.lt y x = false) : F32.le x y = true := by
  rcases x with a | (_ | _) | _ <;> rcases y with b | (_ | _) | _ <;>
    simp_all [F32.lt, F32.le]

theorem F32.le_chain (x y z : F32) (h1 : F32.le x y = true) (h2 : F32.le y z = true) :
    F32.le x z = true := by
  rcases x with a | (_ | _) | _ <;> rcases y with b | (_ | _) | _ <;>
    rcases z with c | (_ | _) | _ <;> simp_all [F32.le]
  exact h1.trans h2

/-! ## Cell derivation, motion step and hash -/

theorem rawCoordinate_cases (x v dt : ℚ) :
    (∃ r, rawCoordinate x v dt = F32.fin r) ∨ (∃ n, rawCoordinate x v dt = F32.inf n) := by
  simp only [rawCoordinate, F32.mul]
  rcases F32.ofRat_cases (v * dt) with h | h <;> rw [h] <;> simp only [F32.add]
  · rcases F32.ofRat_cases (x + roundRat (v * dt)) with h' | h' <;> rw [h'] <;> simp
  · simp

/-- One axis of the motion step, by the position of the float sum relative to
`[0, bound]`. -/
theorem advanceAxis_spec (x v dt bound : ℚ) (hb : 0 < bound) :
    (∀ r, rawCoordinate x v dt = F32.fin r → 0 ≤ r → r ≤ bound →
      advanceAxis x v dt bound = (r, v)) ∧
    (F32.lt (rawCoordinate x v dt) (F32.fin 0) = true →
      advanceAxis x v dt bound = (0, -v)) ∧
    (F32.lt (F32.fin bound) (rawCoordinate x v dt) = true →
      advanceAxis x v dt bound = (bound, -v)) ∧
    ((∃ r, rawCoordinate x v dt = F32.fin r ∧ 0 ≤ r ∧ r ≤ bound) ∨
      F32.lt (rawCoordinate x v dt) (F32.fin 0) = true ∨
      F32.lt (F32.fin bound) (rawCoordinate x v dt) = true) ∧
    0 ≤ (advanceAxis x v dt bound).1 ∧ (advanceAxis x v dt bound).1 ≤ bound := by
  rcases rawCoordinate_cases x v dt with ⟨r, hr⟩ | ⟨n, hn⟩
  · simp only [advanceAxis, hr, F32.lt, F32.clamp, F32.toRat]
    by_cases h1 : r < 0
    · have h2 : ¬ bound < r := by linarith
      simp [h1, h2, F32.toRat, hb.le]
    · by_cases h2 : bound < r
      · simp [h1, h2, F32.toRat, hb.le]
      · simp [h1, h2, F32.toRat]
        exact ⟨not_lt.mp h1, not_lt.mp h2⟩
  · cases n
    · simp [advanceAxis, hn, F32.lt, F32.clamp, F32.toRat, hb.le]
    · simp [advanceAxis, hn, F32.lt, F32.clamp, F32.toRat, hb.le]

/-- C9 (amended): the motion step acts on each axis on its own. With `raw` the single
precision result of `position + velocity * dt` (product and sum each rounded), a raw
coordinate inside `[0, bound]` is kept with the velocity unchanged; a raw coordinate below
zero gives coordinate `0` and a raw coordinate above the bound gives the bound, both with
the velocity component negated; one of the three cases always applies. The new position
lies in `[0, width] × [0, height]`, and an entity at `x = -5` with `vx = -10` and bound
800 whose raw coordinate is below zero ends at `x = 0` with `vx = 10`. -/
theorem advance_reflects (dt width height : ℚ) (point : MovingPoint)
    (_hdt : 0 ≤ dt) (hw : 0 < width) (hh : 0 < height) :
    ((∀ r, rawCoordinate point.position.1 point.velocity.1 dt = F32.fin r → 0 ≤ r →
        r ≤ width →
        (advance dt width height point).position.1 = r ∧
        (advance dt width height point).velocity.1 = point.velocity.1) ∧
      (F32.lt (rawCoordinate point.position.1 point.velocity.1 dt) (F32.fin 0) = true →
        (advance dt width height point).position.1 = 0 ∧
        (advance dt width height point).velocity.1 = -point.velocity.1) ∧
      (F32.lt (F32.fin width) (rawCoordinate point.position.1 point.velocity.1 dt) = true →
        (advance dt width height point).position.1 = width ∧
        (advance dt width height point).velocity.1 = -point.velocity.1) ∧
      ((∃ r, rawCoordinate point.position.1 point.velocity.1 dt = F32.fin r ∧ 0 ≤ r ∧
          r ≤ width) ∨
        F32.lt (rawCoordinate point.position.1 point.velocity.1 dt) (F32.fin 0) = true ∨
        F32.lt (F32.fin width) (rawCoordinate point.position.1 point.velocity.1 dt) = true)) ∧
    ((∀ r, rawCoordinate point.position.2 point.velocity.2 dt = F32.fin r → 0 ≤ r →
        r ≤ height →
        (advance dt width height point).position.2 = r ∧
        (advance dt width height point).velocity.2 = point.velocity.2) ∧
      (F32.lt (rawCoordinate point.position.2 point.velocity.2 dt) (F32.fin 0) = true →
        (advance dt width height point).position.2 = 0 ∧
        (advance dt width height point).velocity.2 = -point.velocity.2) ∧
      (F32.lt (F32.fin height) (rawCoordinate point.position.2 point.velocity.2 dt) = true →
        (advance dt width height point).position.2 = height ∧
        (advance dt width height point).velocity.2 = -point.velocity.2) ∧
      ((∃ r, rawCoordinate point.position.2 point.velocity.2 dt = F32.fin r ∧ 0 ≤ r ∧
          r ≤ height) ∨
        F32.lt (rawCoordinate point.position.2 point.velocity.2 dt) (F32.fin 0) = true ∨
        F32.lt (F32.fin height) (rawCoordinate point.position.2 point.velocity.2 dt) = true)) ∧
    (0 ≤ (advance dt width height point).position.1 ∧
      (advance dt width height point).position.1 ≤ width ∧
      0 ≤ (advance dt width height point).position.2 ∧
      (advance dt width height point).position.2 ≤ height) ∧
    (point.position.1 = -5 → point.velocity.1 = -10 → width = 800 →
      F32.lt (rawCoordinate point.position.1 point.velocity.1 dt) (F32.fin 0) = true →
      (advance dt width height point).position.1 = 0 ∧
      (advance dt width height point).velocity.1 = 10) := by
  obtain ⟨x1, x2, x3, x4, x5, x6⟩ :=
    advanceAxis_spec point.position.1 point.velocity.1 dt width hw
  obtain ⟨y1, y2, y3, y4, y5, y6⟩ :=
    advanceAxis_spec point.position.2 point.velocity.2 dt height hh
  refine ⟨⟨?_, ?_, ?_, x4⟩, ⟨?_, ?_, ?_, y4⟩, ⟨x5, x6, y5, y6⟩, ?_⟩
  · intro r h1 h2 h3
    have := x1 r h1 h2 h3
    simp only [advance, this, and_self]
  · intro h
    have := x2 h
    simp only [advance, this, and_self]
  · intro h
    have := x3 h
    simp only [advance, this, and_self]
  · intro r h1 h2 h3
    have := y1 r h1 h2 h3
    simp only [advance, this, and_self]
  · intro h
    have := y2 h
    simp only [advance, this, and_self]
  · intro h
    have := y3 h
    simp only [advance, this, and_self]
  · intro _ hv _ h
    have := x2 h
    simp only [advance, this, true_and]
    rw [hv]
    norm_num

theorem advance_reflects_witness :
    (0 : ℚ) ≤ 1 ∧ (0 : ℚ) < 800 ∧ (0 : ℚ) < 600 ∧
    rawCoordinate (-5) (-10) 1 = F32.fin (-15) ∧
    (advance 1 800 600 ⟨(-5, 590), (-10, 20)⟩).position.1 = 0 ∧
    (advance 1 800 600 ⟨(-5, 590), (-10, 20)⟩).velocity.1 = 10 := by
  have h := (advance_reflects 1 800 600 ⟨(-5, 590), (-10, 20)⟩
    (by norm_num) (by norm_num) (by norm_num)).2.2.2 rfl rfl rfl (by decide!)
  exact ⟨by norm_num, by norm_num, by norm_num, by decide!, h.1, h.2⟩

/-- C9 (as stated) fails: an entity at `x = 800` with `vx = 2 ^ (-20)`, `dt = 1` and bound
800 has the exact raw coordinate `800 + 2 ^ (-20)`, above the bound, yet the float sum is
800 and the step keeps the velocity component instead of negating it. -/
theorem advance_reflects_counterexample :
    (0 : ℚ) ≤ 1 ∧ (0 : ℚ) < 800 ∧ (0 : ℚ) < 600 ∧
    roundRat (1 / 2 ^ 20) = 1 / 2 ^ 20 ∧
    (800 : ℚ) < 800 + 1 / 2 ^ 20 * 1 ∧
    rawCoordinate 800 (1 / 2 ^ 20) 1 = F32.fin 800 ∧
    (advance 1 800 600 ⟨(800, 300), (1 / 2 ^ 20, 0)⟩).position.1 = 800 ∧
    (advance 1 800 600 ⟨(800, 300), (1 / 2 ^ 20, 0)⟩).velocity.1 = 1 / 2 ^ 20 ∧
    (advance 1 800 600 ⟨(800, 300), (1 / 2 ^ 20, 0)⟩).velocity.1 ≠ -(1 / 2 ^ 20) :=
  ⟨by norm_num, by norm_num, by norm_num, by decide!, by norm_num, by decide!, by decide!,
    by decide!, by decide!⟩

/-- C10 (as the code has it): `CellHash` is symmetric in the two axes; a cell and the
cell with its coordinates swapped always get the same hash value, whatever
`std::hash<int>` is. -/
theorem CellHash_swap (hashInt : Int → Nat) (x y : Int) :
    CellHash hashInt (x, y) = CellHash hashInt (y, x) := by
  simp only [CellHash]
  exact Nat.xor_comm _ _

/-- C10 (as stated) fails: there is no hash of integers and no pair of distinct
coordinates whose swapped cells get different values of `CellHash`. -/
theorem CellHash_not_order_sensitive :
    ¬ ∃ (hashInt : Int → Nat) (x y : Int),
      x ≠ y ∧ CellHash hashInt (x, y) ≠ CellHash hashInt (y, x) := by
  rintro ⟨hashInt, x, y, -, h⟩
  exact h (by simp only [CellHash]; exact Nat.xor_comm _ _)

/-! ## The sort -/

theorem sortInsert_perm {α : Type} (less : α → α → Bool) (a : α) (l : List α) :
    (sortInsert less a l).Perm (a :: l) := by
  induction l with
  | nil => exact List.Perm.refl _
  | cons b rest ih =>
    simp only [sortInsert]
    split
    · exact ((List.Perm.cons b ih).trans (List.Perm.swap a b rest))
    · exact List.Perm.refl _

theorem sort_perm {α : Type} (less : α → α → Bool) (l : List α) :
    (sort less l).Perm l := by
  induction l with
  | nil => exact List.Perm.refl _
  | cons a rest ih =>
    simp only [sort]
    exact (sortInsert_perm less a _).trans (List.Perm.cons a ih)

theorem sortInsert_sorted (point a : Vector2f) (l : List Vector2f)
    (h : l.Pairwise (fun x y => F32.le (distance x point) (distance y point) = true)) :
    (sortInsert (distanceLess point) a l).Pairwise
      (fun x y => F32.le (distance x point) (distance y point) = true) := by
  induction l with
  | nil => simp [sortInsert]
  | cons b rest ih =>
    rw [List.pairwise_cons] at h
    simp only [sortInsert]
    split
    next hlt =>
      rw [List.pairwise_cons]
      refine ⟨?_, ih h.2⟩
      intro x hx
      rcases List.mem_cons.mp ((sortInsert_perm _ a rest).subset hx) with rfl | hx'
      · exact F32.le_of_lt_true _ _ hlt
      · exact h.1 x hx'
    next hlt =>
      have hle : F32.le (distance a point) (distance b point) = true :=
        F32.le_of_lt_false _ _ (distance_ne_nan a point) (distance_ne_nan b point)
          (by simpa [distanceLess] using hlt)
      rw [List.pairwise_cons]
      refine ⟨?_, List.pairwise_cons.mpr h⟩
      intro x hx
      rcases List.mem_cons.mp hx with rfl | hx'
      · exact hle
      · exact F32.le_chain _ _ _ hle (h.1 x hx')

/-- The sorted list is in ascending order of the computed distance. -/
theorem sort_sorted (point : Vector2f) (l : List Vector2f) :
    (sort (distanceLess point) l).Pairwise
      (fun x y => F32.le (distance x point) (distance y point) = true) := by
  induction l with
  | nil => simp [sort]
  | cons a rest ih => exact sortInsert_sorted point a _ ih

theorem sort_nil {α : Type} (less : α → α → Bool) : sort less ([] : List α) = [] := rfl

/-- The loop test `s <= sqrt(n)` on integers. -/
theorem loopTest_iff_sqrt (s n : Nat) : s * s ≤ n ↔ s ≤ Nat.sqrt n :=
  Nat.le_sqrt.symm

/-! ## The ring loop -/

theorem ringLoop_succ (point : Vector2f) (cell : Cell) (grid : Grid) (k : Int)
    (fuel s : Nat) (neighbors : List Vector2f) :
    ringLoop point cell grid k (fuel + 1) s neighbors =
      if s * s ≤ grid.size then
        if toSizeT k ≤ (scanSquare point cell grid s neighbors).length then
          scanSquare point cell grid s neighbors
        else ringLoop point cell grid k fuel (s + 1) []
      else neighbors := rfl

/-- Fuel beyond what `neighborsFrom` passes changes nothing: the loop always ends by its
own test or by `break`. -/
theorem ringLoop_fuel_succ (point : Vector2f) (cell : Cell) (grid : Grid) (k : Int) :
    ∀ (fuel s : Nat) (neighbors : List Vector2f), 1 ≤ s → grid.size + 2 ≤ fuel + s →
      ringLoop point cell grid k (fuel + 1) s neighbors =
        ringLoop point cell grid k fuel s neighbors := by
  intro fuel
  induction fuel with
  | zero =>
    intro s neighbors hs h
    have hbig : ¬ s * s ≤ grid.size := by
      intro hle
      have : s ≤ s * s := Nat.le_mul_self s
      omega
    simp [ringLoop, hbig]
  | succ f ih =>
    intro s neighbors hs h
    rw [ringLoop_succ point cell grid k (f + 1) s neighbors,
      ringLoop_succ point cell grid k f s neighbors]
    split
    · split
      · rfl
      · exact ih (s + 1) [] (by omega) (by omega)
    · rfl

theorem ringLoop_fuel (point : Vector2f) (cell : Cell) (grid : Grid) (k : Int)
    (extra : Nat) (neighbors : List Vector2f) :
    ringLoop point cell grid k (grid.size + 1 + extra) 1 neighbors =
      ringLoop point cell grid k (grid.size + 1) 1 neighbors := by
  induction extra with
  | zero => rfl
  | succ e ih =>
    rw [← ih]
    exact ringLoop_fuel_succ point cell grid k (grid.size + 1 + e) 1 neighbors
      (le_refl 1) (by omega)

/-- What the loop leaves in `neighbors`: nothing, or the scan of one radius that
collected at least `k` candidates. -/
theorem ringLoop_cases (point : Vector2f) (cell : Cell) (grid : Grid) (k : Int) :
    ∀ (fuel s : Nat),
      ringLoop point cell grid k fuel s [] = [] ∨
      ∃ r, s ≤ r ∧ r * r ≤ grid.size ∧
        ringLoop point cell grid k fuel s [] = scanSquare point cell grid r [] ∧
        toSizeT k ≤ (scanSquare point cell grid r []).length := by
  intro fuel
  induction fuel with
  | zero => intro s; left; rfl
  | succ f ih =>
    intro s
    rw [ringLoop]
    split
    next hs =>
      simp only []
      split
      next hk => right; exact ⟨s, le_refl s, hs, rfl, hk⟩
      next hk =>
        rcases ih (s + 1) with h | ⟨r, hr, hr2, heq, hlen⟩
        · left; exact h
        · right; exact ⟨r, by omega, hr2, heq, hlen⟩
    next hs => left; rfl

theorem find_mem (grid : Grid) (c : Cell) (bucket : List Vector2f)
    (h : grid.find c = some bucket) : (c, bucket) ∈ grid := by
  induction grid with
  | nil => simp [Grid.find] at h
  | cons entry rest ih =>
    obtain ⟨c', b⟩ := entry
    simp only [Grid.find] at h
    split at h
    next heq =>
      cases h
      rw [heq]
      exact List.mem_cons_self _ _
    next hne => exact List.mem_cons_of_mem _ (ih h)

theorem cellCandidates_mem (point : Vector2f) (grid : Grid) (c : Cell) (q : Vector2f)
    (h : q ∈ cellCandidates point grid c) : q ≠ point ∧ q ∈ grid.positions := by
  simp only [cellCandidates] at h
  split at h
  next bucket hfind =>
    rw [List.mem_filter] at h
    refine ⟨by simpa using h.2, ?_⟩
    simp only [Grid.positions, List.mem_flatMap]
    exact ⟨(c, bucket), find_mem grid c bucket hfind, h.1⟩
  next => simp at h

theorem scanSquare_mem (point : Vector2f) (cell : Cell) (grid : Grid) (s : Nat)
    (q : Vector2f) (h : q ∈ scanSquare point cell grid s []) :
    q ≠ point ∧ q ∈ grid.positions := by
  simp only [scanSquare, List.nil_append, List.mem_flatMap] at h
  obtain ⟨c, -, hq⟩ := h
  exact cellCandidates_mem point grid c q hq

theorem ringLoop_mem (point : Vector2f) (cell : Cell) (grid : Grid) (k : Int)
    (fuel s : Nat) (q : Vector2f) (h : q ∈ ringLoop point cell grid k fuel s []) :
    q ≠ point ∧ q ∈ grid.positions := by
  rcases ringLoop_cases point cell grid k fuel s with h0 | ⟨r, -, -, heq, -⟩
  · rw [h0] at h; simp at h
  · rw [heq] at h; exact scanSquare_mem point cell grid r q h

/-- The result is a sublist of the sorted candidates. -/
theorem neighborsFrom_sublist (point : Vector2f) (cell : Cell) (grid : Grid) (k : Int) :
    (neighborsFrom point cell grid k).Sublist
      (sort (distanceLess point) (ringLoop point cell grid k (grid.size + 1) 1 [])) := by
  simp only [neighborsFrom]
  split
  · exact List.take_sublist _ _
  · exact List.Sublist.refl _

theorem neighborsFrom_mem (point : Vector2f) (cell : Cell) (grid : Grid) (k : Int)
    (q : Vector2f) (h : q ∈ neighborsFrom point cell grid k) :
    q ≠ point ∧ q ∈ grid.positions := by
  have h1 := (neighborsFrom_sublist point cell grid k).subset h
  have h2 := (sort_perm _ _).subset h1
  exact ringLoop_mem point _ grid k _ _ q h2

theorem neighborsFrom_pairwise (point : Vector2f) (cell : Cell) (grid : Grid) (k : Int) :
    (neighborsFrom point cell grid k).Pairwise
      (fun x y => F32.le (distance x point) (distance y point) = true) :=
  List.Pairwise.sublist (neighborsFrom_sublist point cell grid k) (sort_sorted point _)

/-- The function `findKNearest` has a result exactly when the query cell is defined. -/
theorem findKNearest_isSome (point : Vector2f) (grid : Grid) (k : Int) (cellSize : ℚ) :
    (findKNearest point grid k cellSize).isSome = (getCell point cellSize).isSome := by
  simp only [findKNearest, Option.isSome_map']

theorem findKNearest_eq_some (point : Vector2f) (grid : Grid) (k : Int) (cellSize : ℚ)
    (result : List Vector2f) (h : findKNearest point grid k cellSize = some result) :
    ∃ cell, getCell point cellSize = some cell ∧ result = neighborsFrom point cell grid k := by
  simp only [findKNearest, Option.map_eq_some'] at h
  obtain ⟨cell, hcell, hres⟩ := h
  exact ⟨cell, hcell, hres.symm⟩

/-- C1: no element of the result of `findKNearest` is equal to the query point; the call
has a result whenever the query cell is defined. -/
theorem findKNearest_excludes_query (point : Vector2f) (grid : Grid) (k : Int)
    (cellSize : ℚ) (_hk : 0 ≤ k) (_hc : 0 < cellSize) :
    (findKNearest point grid k cellSize).isSome = (getCell point cellSize).isSome ∧
    ∀ result, findKNearest point grid k cellSize = some result →
      ∀ q ∈ result, q ≠ point := by
  refine ⟨findKNearest_isSome point grid k cellSize, ?_⟩
  intro result hres q hq
  obtain ⟨cell, -, rfl⟩ := findKNearest_eq_some point grid k cellSize result hres
  exact (neighborsFrom_mem point cell grid k q hq).1

theorem findKNearest_excludes_query_witness :
    (0 : Int) ≤ 1 ∧ (0 : ℚ) < 50 ∧
    findKNearest (10, 10) [((0, 0), [(10, 10), (20, 20)])] 1 50 = some [(20, 20)] ∧
    ∀ q ∈ [((20, 20) : Vector2f)], q ≠ ((10, 10) : Vector2f) :=
  ⟨by decide, by norm_num, by decide!,
    (findKNearest_excludes_query (10, 10) [((0, 0), [(10, 10), (20, 20)])] 1 50
      (by decide) (by norm_num)).2 [(20, 20)] (by decide!)⟩

/-- C2 (amended): the result of `findKNearest` is in ascending order of the single
precision distance the program computes: for indices `i < j` the value of
`distance(result[i], p)` is at most that of `distance(result[j], p)`. -/
theorem findKNearest_sorted (point : Vector2f) (grid : Grid) (k : Int) (cellSize : ℚ)
    (_hk : 0 ≤ k) (_hc : 0 < cellSize) (result : List Vector2f)
    (hres : findKNearest point grid k cellSize = some result)
    (i j : Nat) (hij : i < j) (a b : Vector2f)
    (ha : result[i]? = some a) (hb : result[j]? = some b) :
    F32.le (distance a point) (distance b point) = true := by
  obtain ⟨cell, -, rfl⟩ := findKNearest_eq_some point grid k cellSize result hres
  obtain ⟨hi, rfl⟩ := List.getElem?_eq_some.mp ha
  obtain ⟨hj, rfl⟩ := List.getElem?_eq_some.mp hb
  exact List.pairwise_iff_getElem.mp (neighborsFrom_pairwise point cell grid k) i j hi hj hij

theorem findKNearest_sorted_witness :
    (0 : Int) ≤ 2 ∧ (0 : ℚ) < 50 ∧
    findKNearest (0, 0) [((0, 0), [(30, 0), (20, 10), (10, 10)])] 2 50
      = some [(10, 10), (20, 10)] ∧
    distance (10, 10) (0, 0) = F32.fin (14829104 / 2 ^ 20) ∧
    distance (20, 10) (0, 0) = F32.fin (11723436 / 2 ^ 19) ∧
    F32.le (distance (10, 10) (0, 0)) (distance (20, 10) (0, 0)) = true :=
  ⟨by decide, by norm_num, by decide!, by decide!, by decide!,
    findKNearest_sorted (0, 0) [((0, 0), [(30, 0), (20, 10), (10, 10)])] 2 50
      (by decide) (by norm_num) [(10, 10), (20, 10)] (by decide!) 0 1 (by decide)
      (10, 10) (20, 10) (by decide!) (by decide!)⟩

/-- C2 (as stated) fails: with the entities `(1, 2 ^ (-13))` and `(1, 0)` in one cell and
the query point `(0, 0)`, both computed distances are the float 1, the result keeps the
order `[(1, 2 ^ (-13)), (1, 0)]`, and the Euclidean distance of the first entry is larger
than that of the second. -/
theorem findKNearest_sorted_counterexample :
    (0 : Int) ≤ 2 ∧ (0 : ℚ) < 50 ∧
    roundRat (1 / 2 ^ 13) = 1 / 2 ^ 13 ∧
    rebuild 50 [] [(1, 1 / 2 ^ 13), (1, 0)] = some [((0, 0), [(1, 1 / 2 ^ 13), (1, 0)])] ∧
    findKNearest (0, 0) [((0, 0), [(1, 1 / 2 ^ 13), (1, 0)])] 2 50
      = some [(1, 1 / 2 ^ 13), (1, 0)] ∧
    distance (1, 1 / 2 ^ 13) (0, 0) = F32.fin 1 ∧ distance (1, 0) (0, 0) = F32.fin 1 ∧
    ¬ (Real.sqrt ((euclideanSq (1, 1 / 2 ^ 13) (0, 0) : ℚ) : ℝ) ≤
        Real.sqrt ((euclideanSq (1, 0) (0, 0) : ℚ) : ℝ)) := by
  refine ⟨by decide, by norm_num, by decide!, by decide!, by decide!, by decide!, by decide!, ?_⟩
  rw [not_le]
  apply Real.sqrt_lt_sqrt
  · norm_num [euclideanSq]
  · norm_num [euclideanSq]

/-! ## The scanned square -/

theorem offsets_nodup (s : Nat) : (offsets s).Nodup := by
  unfold offsets
  refine List.Nodup.map ?_ (List.nodup_range _)
  intro i j h
  simp only at h
  omega

theorem mem_offsets (s : Nat) (d : Int) :
    d ∈ offsets s ↔ -(s : Int) ≤ d ∧ d ≤ (s : Int) := by
  simp only [offsets, List.mem_map, List.mem_range]
  constructor
  · rintro ⟨i, hi, rfl⟩
    omega
  · rintro ⟨h1, h2⟩
    exact ⟨(d + s).toNat, by omega, by omega⟩

theorem mem_exactSquare (cell c : Cell) (s : Nat) :
    c ∈ exactSquare cell s ↔
      (-(s : Int) ≤ c.1 - cell.1 ∧ c.1 - cell.1 ≤ (s : Int)) ∧
      (-(s : Int) ≤ c.2 - cell.2 ∧ c.2 - cell.2 ≤ (s : Int)) := by
  obtain ⟨c1, c2⟩ := c
  simp only [exactSquare, List.mem_flatMap, List.mem_map, mem_offsets, Prod.mk.injEq]
  constructor
  · rintro ⟨dx, hdx, dy, hdy, rfl, rfl⟩
    omega
  · rintro ⟨hx, hy⟩
    exact ⟨c1 - cell.1, hx, c2 - cell.2, hy, by omega, by omega⟩

theorem exactSquare_nodup (cell : Cell) (s : Nat) : (exactSquare cell s).Nodup := by
  simp only [exactSquare]
  rw [List.nodup_flatMap]
  constructor
  · intro dx _
    refine List.Nodup.map ?_ (offsets_nodup s)
    intro a b h
    simp only [Prod.mk.injEq, true_and] at h
    omega
  · refine List.Nodup.pairwise_of_forall_ne (offsets_nodup s) ?_
    intro a _ b _ hab
    simp only [Function.onFun]
    intro x hxa hxb
    simp only [List.mem_map] at hxa hxb
    obtain ⟨_, _, rfl⟩ := hxa
    obtain ⟨_, _, h⟩ := hxb
    simp only [Prod.mk.injEq] at h
    omega

/-- While the coordinates of the query cell plus the radius stay within `2 ^ 24`, the
float additions `cell.x + dx` are exact and the loops visit the cells of the square,
each once. -/
theorem squareCells_eq_exact (cell : Cell) (s : Nat)
    (hx : |cell.1| + (s : Int) ≤ 2 ^ 24) (hy : |cell.2| + (s : Int) ≤ 2 ^ 24) :
    squareCells cell s = exactSquare cell s := by
  have hadd : ∀ (v d : Int), |v| + (s : Int) ≤ 2 ^ 24 → d ∈ offsets s → cellAdd v d = v + d := by
    intro v d hv hd
    rw [mem_offsets] at hd
    have h1 : |d| ≤ (s : Int) := abs_le.mpr hd
    have h2 : |v| ≥ 0 := abs_nonneg v
    apply cellAdd_eq
    · omega
    · have := abs_add v d
      omega
  simp only [squareCells, exactSquare]
  apply List.flatMap_congr
  intro dx hdx
  apply List.map_congr_left
  intro dy hdy
  rw [hadd cell.1 dx hx hdx, hadd cell.2 dy hy hdy]

theorem cellCandidates_nil (point : Vector2f) (c : Cell) :
    cellCandidates point [] c = [] := rfl

theorem cellCandidates_cons (point : Vector2f) (c0 : Cell) (b0 : List Vector2f)
    (rest : Grid) (c : Cell) :
    cellCandidates point ((c0, b0) :: rest) c =
      if c0 = c then b0.filter (fun neighbor => decide (neighbor ≠ point))
      else cellCandidates point rest c := by
  simp only [cellCandidates, Grid.find]
  by_cases h : c0 = c
  · simp only [h, if_true]
  · simp only [h, if_false]

theorem flatMap_override_length {β : Type} (c0 : Cell) (extra : List β)
    (f : Cell → List β) (cells : List Cell) (hnd : cells.Nodup) :
    (cells.flatMap (fun c => if c0 = c then extra else f c)).length ≤
      extra.length + (cells.flatMap f).length := by
  induction cells with
  | nil => simp
  | cons c cs ih =>
    rw [List.nodup_cons] at hnd
    simp only [List.flatMap_cons, List.length_append]
    by_cases h : c0 = c
    · have hsame : cs.flatMap (fun c => if c0 = c then extra else f c) = cs.flatMap f := by
        apply List.flatMap_congr
        intro x hx
        have : c0 ≠ x := by
          intro hx0
          rw [← hx0, h] at hx
          exact hnd.1 hx
        simp [this]
      rw [hsame]
      simp only [h, if_true]
      omega
    · have := ih hnd.2
      simp only [h, if_false]
      omega

/-- Whatever nodup list of cells is scanned, the candidates are no more than the stored
positions different from the query point. -/
theorem candidates_length_le (point : Vector2f) (grid : Grid) :
    ∀ cells : List Cell, cells.Nodup →
      (cells.flatMap (cellCandidates point grid)).length ≤
        (grid.positions.filter (fun q => decide (q ≠ point))).length := by
  induction grid with
  | nil =>
    intro cells _
    have : cells.flatMap (cellCandidates point []) = [] := by
      induction cells with
      | nil => rfl
      | cons c cs ih => simp [List.flatMap_cons, cellCandidates_nil, ih]
    rw [this]
    exact Nat.zero_le _
  | cons entry rest ih =>
    obtain ⟨c0, b0⟩ := entry
    intro cells hnd
    have hfun : cellCandidates point ((c0, b0) :: rest) =
        fun c => if c0 = c then b0.filter (fun neighbor => decide (neighbor ≠ point))
          else cellCandidates point rest c := by
      funext c
      exact cellCandidates_cons point c0 b0 rest c
    rw [hfun]
    have h1 := flatMap_override_length c0
      (b0.filter (fun neighbor => decide (neighbor ≠ point)))
      (cellCandidates point rest) cells hnd
    have h2 := ih cells hnd
    simp only [Grid.positions, List.flatMap_cons, List.filter_append, List.length_append]
    simp only [Grid.positions] at h2
    omega

theorem scanSquare_length_le (point : Vector2f) (cell : Cell) (grid : Grid) (s : Nat)
    (hx : |cell.1| + (s : Int) ≤ 2 ^ 24) (hy : |cell.2| + (s : Int) ≤ 2 ^ 24) :
    (scanSquare point cell grid s []).length ≤
      (grid.positions.filter (fun q => decide (q ≠ point))).length := by
  simp only [scanSquare, List.nil_append, squareCells_eq_exact cell s hx hy]
  exact candidates_length_le point grid _ (exactSquare_nodup cell s)

theorem total_eq_length (grid : Grid) : grid.total = grid.positions.length := by
  induction grid with
  | nil => rfl
  | cons entry rest ih =>
    simp only [Grid.total, Grid.positions, List.map_cons, List.sum_cons, List.flatMap_cons,
      List.length_append]
    simp only [Grid.total, Grid.positions] at ih
    rw [ih]

theorem toSizeT_le (k : Int) (hk : 0 ≤ k) : ((toSizeT k : Nat) : Int) ≤ k := by
  simp only [toSizeT]
  omega

theorem toSizeT_of_int (k : Int) (hk : 0 ≤ k) (hk' : k < 2 ^ 63) :
    ((toSizeT k : Nat) : Int) = k := by
  simp only [toSizeT]
  omega

theorem toSizeT_neg (k : Int) (hk : k < 0) (hlo : -2 ^ 31 ≤ k) : 2 ^ 63 ≤ toSizeT k := by
  simp only [toSizeT]
  omega

/-- When no scanned radius collects `k` candidates the loop leaves `neighbors` cleared and
the result is the empty sequence. -/
theorem neighborsFrom_cap_empty (point : Vector2f) (cell : Cell) (grid : Grid) (k : Int)
    (hshort : ∀ s : Nat, 1 ≤ s → s * s ≤ grid.size →
      (scanSquare point cell grid s []).length < toSizeT k) :
    neighborsFrom point cell grid k = [] := by
  have hloop : ringLoop point cell grid k (grid.size + 1) 1 [] = [] := by
    rcases ringLoop_cases point cell grid k (grid.size + 1) 1 with
      h | ⟨r, hr, hr2, -, hlen⟩
    · exact h
    · exact absurd hlen (not_le.mpr (hshort r hr hr2))
  simp only [neighborsFrom, hloop, sort_nil]
  split <;> simp

theorem neighborsFrom_length_le_candidates (point : Vector2f) (cell : Cell) (grid : Grid)
    (k : Int) (hx : |cell.1| + (grid.size : Int) ≤ 2 ^ 24)
    (hy : |cell.2| + (grid.size : Int) ≤ 2 ^ 24) :
    (neighborsFrom point cell grid k).length ≤
      (grid.positions.filter (fun q => decide (q ≠ point))).length := by
  have h1 := (neighborsFrom_sublist point cell grid k).length_le
  have h2 := (sort_perm (distanceLess point)
    (ringLoop point cell grid k (grid.size + 1) 1 [])).length_eq
  rcases ringLoop_cases point cell grid k (grid.size + 1) 1 with
    h | ⟨r, hr1, hr2, heq, -⟩
  · rw [h] at h1 h2
    simp only [List.length_nil] at h2
    omega
  · rw [heq] at h1 h2
    have hr : r ≤ grid.size := (Nat.le_mul_self r).trans hr2
    have := scanSquare_length_le point cell grid r (by omega) (by omega)
    omega

theorem neighborsFrom_length_le_k (point : Vector2f) (cell : Cell) (grid : Grid) (k : Int)
    (hk : 0 ≤ k) : ((neighborsFrom point cell grid k).length : Int) ≤ k := by
  have hle := toSizeT_le k hk
  simp only [neighborsFrom]
  split
  next h =>
    rw [List.length_take]
    omega
  next h => omega

/-! ## The grid after `push_back` and after a rebuild -/

theorem pushBack_positions_perm (grid : Grid) (c : Cell) (q : Vector2f) :
    (grid.pushBack c q).positions.Perm (q :: grid.positions) := by
  induction grid with
  | nil => exact List.Perm.refl _
  | cons entry rest ih =>
    obtain ⟨c', b⟩ := entry
    simp only [Grid.pushBack]
    by_cases h : c' = c
    · simp only [h, if_true, Grid.positions, List.flatMap_cons, List.append_assoc,
        List.singleton_append]
      exact List.perm_middle
    · simp only [h, if_false, Grid.positions, List.flatMap_cons]
      simp only [Grid.positions] at ih
      exact (List.Perm.append_left b ih).trans List.perm_middle

theorem pushBack_keys (grid : Grid) (c : Cell) (q : Vector2f) :
    (grid.pushBack c q).map (fun entry => entry.1) =
      if c ∈ grid.map (fun entry => entry.1) then grid.map (fun entry => entry.1)
      else grid.map (fun entry => entry.1) ++ [c] := by
  induction grid with
  | nil => simp [Grid.pushBack]
  | cons entry rest ih =>
    obtain ⟨c', b⟩ := entry
    simp only [Grid.pushBack]
    by_cases h : c' = c
    · simp [h]
    · have hne : ¬ c = c' := fun e => h e.symm
      simp only [h, if_false, List.map_cons, ih, List.mem_cons, hne, false_or]
      split <;> simp

theorem pushBack_WF (grid : Grid) (c : Cell) (q : Vector2f) (h : grid.WF) :
    (grid.pushBack c q).WF := by
  simp only [Grid.WF] at h ⊢
  rw [pushBack_keys]
  split
  · exact h
  next hc =>
    rw [List.nodup_append]
    refine ⟨h, List.nodup_singleton c, ?_⟩
    intro x hx hx'
    rw [List.mem_singleton] at hx'
    exact hc (hx' ▸ hx)

theorem pushBack_bucketed (cellSize : ℚ) (grid : Grid) (q : Vector2f) (c : Cell)
    (hc : getCell q cellSize = some c) (h : grid.Bucketed cellSize) :
    (grid.pushBack c q).Bucketed cellSize := by
  induction grid with
  | nil =>
    intro entry hentry
    simp only [Grid.pushBack, List.mem_singleton] at hentry
    subst hentry
    simp [hc]
  | cons first rest ih =>
    obtain ⟨c', b⟩ := first
    have hrest : Grid.Bucketed cellSize rest :=
      fun entry hentry => h entry (List.mem_cons_of_mem _ hentry)
    have hfirst := h (c', b) (List.mem_cons_self _ _)
    intro entry hentry
    simp only [Grid.pushBack] at hentry
    by_cases hcc : c' = c
    · simp only [hcc, if_true, List.mem_cons] at hentry
      rcases hentry with rfl | hentry
      · refine ⟨by simp, ?_⟩
        intro x hx
        rcases List.mem_append.mp hx with hx | hx
        · rw [← hcc]; exact hfirst.2 x hx
        · rw [List.mem_singleton] at hx; rw [hx]; exact hc
      · exact hrest entry hentry
    · simp only [hcc, if_false, List.mem_cons] at hentry
      rcases hentry with rfl | hentry
      · exact hfirst
      · exact ih hrest entry hentry

theorem find_of_mem (grid : Grid) (h : grid.WF) (c : Cell) (b : List Vector2f)
    (hmem : (c, b) ∈ grid) : grid.find c = some b := by
  induction grid with
  | nil => simp at hmem
  | cons first rest ih =>
    obtain ⟨c', b'⟩ := first
    simp only [Grid.WF, List.map_cons, List.nodup_cons] at h
    simp only [Grid.find]
    rcases List.mem_cons.mp hmem with heq | hmem'
    · cases heq
      simp
    · have hne : c' ≠ c := by
        intro e
        apply h.1
        rw [e]
        exact List.mem_map.mpr ⟨(c, b), hmem', rfl⟩
      simp only [hne, if_false]
      exact ih h.2 hmem'

/-- The push loop of a rebuild, started from any grid. -/
theorem pushAll_props (cellSize : ℚ) :
    ∀ (positions : List Vector2f) (grid result : Grid),
      pushAll cellSize grid positions = some result →
      grid.WF → grid.Bucketed cellSize →
      result.WF ∧ result.Bucketed cellSize ∧
      result.positions.Perm (grid.positions ++ positions) := by
  intro positions
  induction positions with
  | nil =>
    intro grid result hres hwf hb
    simp only [pushAll, Option.some.injEq] at hres
    subst hres
    refine ⟨hwf, hb, ?_⟩
    simp
  | cons q rest ih =>
    intro grid result hres hwf hb
    simp only [pushAll] at hres
    split at hres
    next => exact absurd hres (by simp)
    next c hc =>
      obtain ⟨h1, h2, h3⟩ := ih (grid.pushBack c q) result hres
        (pushBack_WF grid _ q hwf) (pushBack_bucketed cellSize grid q c hc hb)
      refine ⟨h1, h2, h3.trans ?_⟩
      exact (List.Perm.append_right rest (pushBack_positions_perm grid _ q)).trans
        List.perm_middle.symm

/-- The push loop has a result exactly when the cell of every position is defined. -/
theorem pushAll_isSome (cellSize : ℚ) :
    ∀ (positions : List Vector2f) (grid : Grid),
      (pushAll cellSize grid positions).isSome = true ↔
        ∀ q ∈ positions, (getCell q cellSize).isSome = true := by
  intro positions
  induction positions with
  | nil => intro grid; simp [pushAll]
  | cons q rest ih =>
    intro grid
    simp only [pushAll, List.mem_cons, forall_eq_or_imp]
    split
    next h => simp [h]
    next c h => simp [h, ih]

theorem rebuild_props (cellSize : ℚ) (previous grid : Grid) (positions : List Vector2f)
    (h : rebuild cellSize previous positions = some grid) :
    grid.WF ∧ grid.Bucketed cellSize ∧ grid.positions.Perm positions := by
  have := pushAll_props cellSize positions [] grid h List.nodup_nil
    (fun entry hentry => absurd hentry (List.not_mem_nil entry))
  exact this

theorem tickLoop_eq (dt width height cellSize : ℚ) :
    ∀ (points : List MovingPoint) (state : List MovingPoint × Grid),
      tickLoop dt width height cellSize state points =
        (pushAll cellSize state.2
          ((points.map (advance dt width height)).map MovingPoint.position)).map
          (fun g => (state.1 ++ points.map (advance dt width height), g)) := by
  intro points
  induction points with
  | nil => intro state; simp [tickLoop, pushAll]
  | cons point rest ih =>
    intro state
    simp only [tickLoop, List.map_cons, pushAll]
    split
    next h => simp
    next c h =>
      rw [ih]
      simp only [List.append_assoc, List.singleton_append]

theorem tick_eq (dt width height cellSize : ℚ) (points : List MovingPoint) (grid : Grid) :
    tick dt width height cellSize points grid =
      (rebuild cellSize grid
        ((points.map (advance dt width height)).map MovingPoint.position)).map
        (fun g => (points.map (advance dt width height), g)) := by
  simp only [tick, rebuild, tickLoop_eq, List.nil_append]

/-- C8: the per-tick update has a result exactly when the cell of every advanced position
is defined. Then the entities are the advanced ones and the grid is what rebuilding from
all advanced positions gives (integrating everything first and bucketing afterwards). Its
keys are distinct, every entity's position is in the bucket of its own cell, every bucket
is non-empty and holds only positions of its own cell, the stored positions are exactly
the entity positions (as a multiset), their number is the number of entities, the
previous grid has no influence, and rebuilding a second time from the same positions
gives the same grid. -/
theorem tick_grid_exact (dt width height cellSize : ℚ) (points : List MovingPoint)
    (grid : Grid) :
    ((tick dt width height cellSize points grid).isSome = true ↔
      ∀ m ∈ points, (getCell (advance dt width height m).position cellSize).isSome = true) ∧
    ∀ result, tick dt width height cellSize points grid = some result →
      result.1 = points.map (advance dt width height) ∧
      rebuild cellSize grid
        ((points.map (advance dt width height)).map MovingPoint.position) = some result.2 ∧
      result.2.WF ∧
      (∀ m ∈ result.1, ∃ cell bucket, getCell m.position cellSize = some cell ∧
        result.2.find cell = some bucket ∧ m.position ∈ bucket) ∧
      (∀ entry ∈ result.2,
        entry.2 ≠ [] ∧ ∀ q ∈ entry.2,
          getCell q cellSize = some entry.1 ∧ q ∈ result.1.map MovingPoint.position) ∧
      result.2.positions.Perm (result.1.map MovingPoint.position) ∧
      result.2.total = points.length ∧
      (∀ previous : Grid, tick dt width height cellSize points previous = some result) ∧
      (∀ (positions : List Vector2f) (g rebuilt : Grid),
        rebuild cellSize g positions = some rebuilt →
          rebuild cellSize rebuilt positions = some rebuilt) := by
  constructor
  · rw [tick_eq, Option.isSome_map', rebuild, pushAll_isSome]
    simp only [List.mem_map, forall_exists_index, and_imp, forall_apply_eq_imp_iff₂]
  intro result hres
  rw [tick_eq, Option.map_eq_some'] at hres
  obtain ⟨g, hg, rfl⟩ := hres
  obtain ⟨hwf, hb, hperm⟩ := rebuild_props cellSize grid g _ hg
  refine ⟨rfl, hg, hwf, ?_, ?_, hperm, ?_, ?_, ?_⟩
  · intro m hm
    have hq : m.position ∈ g.positions :=
      hperm.symm.subset (List.mem_map.mpr ⟨m, hm, rfl⟩)
    simp only [Grid.positions, List.mem_flatMap] at hq
    obtain ⟨entry, hentry, hmem⟩ := hq
    obtain ⟨c, b⟩ := entry
    have hcell := (hb (c, b) hentry).2 m.position hmem
    exact ⟨c, b, hcell, find_of_mem _ hwf c b hentry, hmem⟩
  · intro entry hentry
    refine ⟨(hb entry hentry).1, ?_⟩
    intro q hq
    refine ⟨(hb entry hentry).2 q hq, ?_⟩
    apply hperm.subset
    simp only [Grid.positions, List.mem_flatMap]
    exact ⟨entry, hentry, hq⟩
  · rw [total_eq_length, hperm.length_eq]
    simp
  · intro previous
    rw [tick_eq]
    have : rebuild cellSize previous
        ((points.map (advance dt width height)).map MovingPoint.position) = some g := hg
    rw [this]
    rfl
  · intro positions g' rebuilt h
    exact h

/-! ## Buckets of a rebuilt grid and the exact answer within one ring -/

theorem find_pushBack (grid : Grid) (c c' : Cell) (q : Vector2f) :
    (grid.pushBack c q).find c' =
      if c = c' then some ((grid.find c').getD [] ++ [q]) else grid.find c' := by
  induction grid with
  | nil =>
    simp only [Grid.pushBack, Grid.find]
    split <;> simp
  | cons first rest ih =>
    obtain ⟨c0, b0⟩ := first
    simp only [Grid.pushBack]
    by_cases h0 : c0 = c
    · subst h0
      simp only [if_true, Grid.find]
      by_cases h1 : c0 = c'
      · simp [h1]
      · simp [h1]
    · simp only [h0, if_false, Grid.find, ih]
      by_cases h1 : c0 = c'
      · have : ¬ c = c' := fun e => h0 (h1.trans e.symm)
        simp [h1, this]
      · simp [h1]

theorem bucket_pushBack (grid : Grid) (c c' : Cell) (q : Vector2f) :
    (grid.pushBack c q).bucket c' =
      if c = c' then grid.bucket c' ++ [q] else grid.bucket c' := by
  simp only [Grid.bucket, find_pushBack]
  split <;> simp

theorem bucket_pushAll (cellSize : ℚ) (c' : Cell) :
    ∀ (positions : List Vector2f) (grid result : Grid),
      pushAll cellSize grid positions = some result →
      result.bucket c' =
        grid.bucket c' ++ positions.filter (fun q => decide (getCell q cellSize = some c')) := by
  intro positions
  induction positions with
  | nil =>
    intro grid result h
    simp only [pushAll, Option.some.injEq] at h
    subst h
    simp
  | cons q rest ih =>
    intro grid result h
    simp only [pushAll] at h
    split at h
    next => exact absurd h (by simp)
    next c hc =>
      rw [ih _ _ h, bucket_pushBack, List.filter_cons, hc]
      by_cases hcc : c = c'
      · simp [hcc]
      · simp [hcc]

theorem bucket_rebuild (cellSize : ℚ) (previous grid : Grid) (positions : List Vector2f)
    (h : rebuild cellSize previous positions = some grid) (c' : Cell) :
    grid.bucket c' = positions.filter (fun q => decide (getCell q cellSize = some c')) := by
  rw [bucket_pushAll cellSize c' positions [] grid h]
  rfl

theorem cellCandidates_eq_bucket (point : Vector2f) (grid : Grid) (c : Cell) :
    cellCandidates point grid c =
      (grid.bucket c).filter (fun neighbor => decide (neighbor ≠ point)) := by
  simp only [cellCandidates, Grid.bucket]
  split
  next bucket h => simp [h]
  next h => simp [h]

theorem flatMap_filter_perm {α : Type} (key : α → Option Cell) :
    ∀ (cells : List Cell) (l : List α), cells.Nodup →
      (∀ a ∈ l, ∃ c ∈ cells, key a = some c) →
      (cells.flatMap (fun c => l.filter (fun a => decide (key a = some c)))).Perm l := by
  intro cells
  induction cells with
  | nil =>
    intro l _ hcov
    have : l = [] := by
      cases l with
      | nil => rfl
      | cons a t =>
        obtain ⟨c, hc, -⟩ := hcov a (List.mem_cons_self _ _)
        exact absurd hc (List.not_mem_nil _)
    subst this
    exact List.Perm.refl _
  | cons c cs ih =>
    intro l hnd hcov
    rw [List.nodup_cons] at hnd
    rw [List.flatMap_cons]
    have hsame : cs.flatMap (fun c' => l.filter (fun a => decide (key a = some c'))) =
        cs.flatMap (fun c' => (l.filter (fun a => !decide (key a = some c))).filter
          (fun a => decide (key a = some c'))) := by
      apply List.flatMap_congr
      intro c' hc'
      rw [List.filter_filter]
      apply List.filter_congr
      intro a _
      by_cases h : key a = some c'
      · have hne : c' ≠ c := by
          intro e
          rw [e] at hc'
          exact hnd.1 hc'
        simp [h, hne]
      · simp [h]
    rw [hsame]
    have hrest := ih (l.filter (fun a => !decide (key a = some c))) hnd.2 (by
      intro a ha
      rw [List.mem_filter] at ha
      have hne : key a ≠ some c := by simpa using ha.2
      obtain ⟨c', hc', hkey⟩ := hcov a ha.1
      rcases List.mem_cons.mp hc' with h | h
      · rw [h] at hkey; exact absurd hkey hne
      · exact ⟨c', h, hkey⟩)
    exact (List.Perm.append_left _ hrest).trans (List.filter_append_perm _ l)

/-- Scanning a nodup list of cells that covers every cell in use, over a rebuilt grid,
collects exactly the stored positions different from the query point. -/
theorem candidates_rebuild_perm (point : Vector2f) (cellSize : ℚ) (previous grid : Grid)
    (positions : List Vector2f) (hgrid : rebuild cellSize previous positions = some grid)
    (cells : List Cell) (hnd : cells.Nodup)
    (hcov : ∀ q ∈ positions, ∃ c ∈ cells, getCell q cellSize = some c) :
    (cells.flatMap (cellCandidates point grid)).Perm
      (positions.filter (fun q => decide (q ≠ point))) := by
  have hfun : cellCandidates point grid =
      fun c => (positions.filter (fun q => decide (q ≠ point))).filter
        (fun q => decide (getCell q cellSize = some c)) := by
    funext c
    rw [cellCandidates_eq_bucket, bucket_rebuild cellSize previous grid positions hgrid,
      List.filter_comm]
  rw [hfun]
  apply flatMap_filter_perm (fun q => getCell q cellSize) cells _ hnd
  intro q hq
  exact hcov q (List.mem_filter.mp hq).1

/-- The exact answer from the first ring, for any cell size for which the cells are
defined: when the grid is rebuilt from `positions`, the cell in use has coordinates
within `2 ^ 24 - 1`, every position lies in a cell within one step of it, and at least
`k ≥ 1` positions differ from the query point. -/
theorem neighborsFrom_exact (point : Vector2f) (cell : Cell) (cellSize : ℚ)
    (previous grid : Grid) (positions : List Vector2f) (k : Int)
    (hgrid : rebuild cellSize previous positions = some grid)
    (hk : 1 ≤ k) (hint : k < 2 ^ 31)
    (hx : |cell.1| + 1 ≤ 2 ^ 24) (hy : |cell.2| + 1 ≤ 2 ^ 24)
    (hnear : ∀ q ∈ positions, ∃ c, getCell q cellSize = some c ∧
      |c.1 - cell.1| ≤ 1 ∧ |c.2 - cell.2| ≤ 1)
    (hcount : k ≤ ((positions.filter (fun q => decide (q ≠ point))).length : Int)) :
    ((neighborsFrom point cell grid k).length : Int) = k ∧
    (∀ q ∈ neighborsFrom point cell grid k, q ∈ positions ∧ q ≠ point) ∧
    (neighborsFrom point cell grid k).Pairwise
      (fun a b => F32.le (distance a point) (distance b point) = true) ∧
    (∃ others : List Vector2f,
      (neighborsFrom point cell grid k ++ others).Perm
        (positions.filter (fun q => decide (q ≠ point))) ∧
      ∀ a ∈ neighborsFrom point cell grid k, ∀ q ∈ others,
        F32.le (distance a point) (distance q point) = true) := by
  have hK := toSizeT_of_int k (by omega) (by omega)
  have hprops := rebuild_props cellSize previous grid positions hgrid
  have hscan : (scanSquare point cell grid 1 []).Perm
      (positions.filter (fun q => decide (q ≠ point))) := by
    simp only [scanSquare, List.nil_append]
    rw [squareCells_eq_exact cell 1 (by simpa using hx) (by simpa using hy)]
    apply candidates_rebuild_perm point cellSize previous grid positions hgrid _
      (exactSquare_nodup _ 1)
    intro q hq
    obtain ⟨c, hc, h1, h2⟩ := hnear q hq
    refine ⟨c, ?_, hc⟩
    rw [mem_exactSquare]
    rw [abs_le] at h1 h2
    exact ⟨⟨by simpa using h1.1, by simpa using h1.2⟩,
      ⟨by simpa using h2.1, by simpa using h2.2⟩⟩
  have hsize : 1 ≤ grid.size := by
    have hlen := hprops.2.2.length_eq
    have hpos : 0 < positions.length := by
      have := List.length_filter_le (fun q => decide (q ≠ point)) positions
      omega
    rw [← hlen] at hpos
    cases grid with
    | nil => simp [Grid.positions] at hpos
    | cons e t => simp [Grid.size]
  have hloop : ringLoop point cell grid k (grid.size + 1) 1 [] =
      scanSquare point cell grid 1 [] := by
    rw [ringLoop_succ]
    have h1 : 1 * 1 ≤ grid.size := by omega
    have h2 : toSizeT k ≤ (scanSquare point cell grid 1 []).length := by
      rw [hscan.length_eq]
      omega
    simp only [h1, h2, if_true]
  have hsortperm := sort_perm (distanceLess point) (scanSquare point cell grid 1 [])
  have hsorted := sort_sorted point (scanSquare point cell grid 1 [])
  have hres : neighborsFrom point cell grid k =
      (sort (distanceLess point) (scanSquare point cell grid 1 [])).take (toSizeT k) := by
    simp only [neighborsFrom, hloop]
    split
    · rfl
    next h => exact (List.take_of_length_le (not_lt.mp h)).symm
  have hlen : toSizeT k ≤
      (sort (distanceLess point) (scanSquare point cell grid 1 [])).length := by
    rw [hsortperm.length_eq, hscan.length_eq]
    omega
  refine ⟨?_, ?_, neighborsFrom_pairwise point cell grid k, ?_⟩
  · rw [hres, List.length_take, Nat.min_eq_left hlen]
    exact hK
  · intro q hq
    have h := neighborsFrom_mem point cell grid k q hq
    exact ⟨hprops.2.2.subset h.2, h.1⟩
  · refine ⟨(sort (distanceLess point) (scanSquare point cell grid 1 [])).drop (toSizeT k),
      ?_, ?_⟩
    · rw [hres, List.take_append_drop]
      exact hsortperm.trans hscan
    · rw [hres]
      rw [← List.take_append_drop (toSizeT k)
        (sort (distanceLess point) (scanSquare point cell grid 1 [])),
        List.pairwise_append] at hsorted
      intro a ha q hq
      exact hsorted.2.2 a ha q hq

/-! ## Length of the result, the cap, and calls outside the precondition -/

/-- C3 (amended): for `k ≥ 0` and `cellSize > 0` the result has at most `k` entries. When
the coordinates of the query cell plus the number of occupied cells stay within `2 ^ 24`
(the neighbour cells are then exact in single precision) it has at most as many entries
as there are stored positions different from the query point, hence at most `total - 1`
entries whenever the query point is itself stored in the grid. A grid holding a single
entity, queried at the position of that entity with `k = 3`, yields the empty sequence. -/
theorem findKNearest_length (point : Vector2f) (grid : Grid) (k : Int) (cellSize : ℚ)
    (hk : 0 ≤ k) (_hc : 0 < cellSize) :
    (∀ result, findKNearest point grid k cellSize = some result →
      (result.length : Int) ≤ k) ∧
    (∀ cell result, getCell point cellSize = some cell →
      findKNearest point grid k cellSize = some result →
      |cell.1| + (grid.size : Int) ≤ 2 ^ 24 → |cell.2| + (grid.size : Int) ≤ 2 ^ 24 →
      result.length ≤ (grid.positions.filter (fun q => decide (q ≠ point))).length ∧
      (point ∈ grid.positions → result.length + 1 ≤ grid.total)) ∧
    (∀ (c : Cell), (getCell point cellSize).isSome = true →
      findKNearest point [(c, [point])] 3 cellSize = some []) := by
  refine ⟨?_, ?_, ?_⟩
  · intro result hres
    obtain ⟨cell, -, rfl⟩ := findKNearest_eq_some point grid k cellSize result hres
    exact neighborsFrom_length_le_k point cell grid k hk
  · intro cell result hcell hres hx hy
    obtain ⟨cell', hcell', rfl⟩ := findKNearest_eq_some point grid k cellSize result hres
    rw [hcell] at hcell'
    cases hcell'
    have h1 := neighborsFrom_length_le_candidates point cell grid k hx hy
    refine ⟨h1, ?_⟩
    intro hmem
    have h2 : (grid.positions.filter (fun q => decide (q ≠ point))).length <
        grid.positions.length := by
      rw [List.length_filter_lt_length_iff_exists]
      exact ⟨point, hmem, by simp⟩
    rw [total_eq_length]
    omega
  · intro c hdef
    obtain ⟨cell, hcell⟩ := Option.isSome_iff_exists.mp hdef
    simp only [findKNearest, hcell, Option.map_some', Option.some.injEq]
    apply List.eq_nil_of_length_eq_zero
    by_contra hne
    obtain ⟨q, hq⟩ := List.exists_mem_of_length_pos (Nat.pos_of_ne_zero hne)
    have h := neighborsFrom_mem point cell [(c, [point])] 3 q hq
    simp only [Grid.positions, List.flatMap_cons, List.flatMap_nil, List.append_nil,
      List.mem_singleton] at h
    exact h.1 h.2

theorem findKNearest_length_witness :
    (0 : Int) ≤ 2 ∧ (0 : ℚ) < 50 ∧
    findKNearest (10, 10) [((0, 0), [(10, 10), (20, 20), (30, 30)])] 2 50
      = some [(20, 20), (30, 30)] ∧
    [((20, 20) : Vector2f), (30, 30)].length + 1 ≤
      Grid.total [((0, 0), [(10, 10), (20, 20), (30, 30)])] :=
  ⟨by decide, by norm_num, by decide!,
    ((findKNearest_length (10, 10) [((0, 0), [(10, 10), (20, 20), (30, 30)])] 2 50
      (by decide) (by norm_num)).2.1 (0, 0) [(20, 20), (30, 30)] (by decide!) (by decide!)
      (by decide) (by decide)).2 (by decide!)⟩

/-- C3 (as stated) fails: a grid holding the single position `(20, 20)`, queried from
`(10, 10)` with `k = 1` and cell size 50, yields `[(20, 20)]`, one entry, which is more
than the number of stored positions minus one. -/
theorem findKNearest_length_counterexample :
    (0 : Int) ≤ 1 ∧ (0 : ℚ) < 50 ∧
    rebuild 50 [] [(20, 20)] = some [((0, 0), [(20, 20)])] ∧
    findKNearest (10, 10) [((0, 0), [(20, 20)])] 1 50 = some [(20, 20)] ∧
    ¬ ((([((20, 20) : Vector2f)].length : Nat) : Int) ≤
        ((Grid.total [((0, 0), [(20, 20)])] : Nat) : Int) - 1) :=
  ⟨by decide, by norm_num, by decide!, by decide!, by decide⟩

/-- C4 (amended): on a grid rebuilt from a list of positions with `cellSize > 0`, when the
query cell has coordinates within `2 ^ 24 - 1` (its neighbour cells are then exact in
single precision), every position lies in a cell within one step of the query cell on
each axis and at least `k ≥ 1` positions differ from the query point, `findKNearest`
returns exactly `k` entries, each a stored position different from the query point, in
ascending order of the computed single precision distance, and every such position left
out has a computed distance at least that of every entry returned. Two entities
`(10, 10)`, `(20, 20)` with cell size 50 and `k = 1` give `[(20, 20)]` for the query
`(10, 10)`; five entities on a line with `k = 2` give the two closest in order. -/
theorem findKNearest_exact (point : Vector2f) (cell : Cell) (cellSize : ℚ)
    (previous grid : Grid) (positions : List Vector2f) (k : Int)
    (_hc : 0 < cellSize) (hk : 1 ≤ k) (hint : k < 2 ^ 31)
    (hgrid : rebuild cellSize previous positions = some grid)
    (hcell : getCell point cellSize = some cell)
    (hx : |cell.1| + 1 ≤ 2 ^ 24) (hy : |cell.2| + 1 ≤ 2 ^ 24)
    (hnear : ∀ q ∈ positions, ∃ c, getCell q cellSize = some c ∧
      |c.1 - cell.1| ≤ 1 ∧ |c.2 - cell.2| ≤ 1)
    (hcount : k ≤ ((positions.filter (fun q => decide (q ≠ point))).length : Int)) :
    (∃ result, findKNearest point grid k cellSize = some result ∧
      (result.length : Int) = k ∧
      (∀ q ∈ result, q ∈ positions ∧ q ≠ point) ∧
      result.Pairwise (fun a b => F32.le (distance a point) (distance b point) = true) ∧
      (∃ others : List Vector2f,
        (result ++ others).Perm (positions.filter (fun q => decide (q ≠ point))) ∧
        ∀ a ∈ result, ∀ q ∈ others,
          F32.le (distance a point) (distance q point) = true)) ∧
    (rebuild 50 previous [(10, 10), (20, 20)] = some [((0, 0), [(10, 10), (20, 20)])] ∧
      findKNearest (10, 10) [((0, 0), [(10, 10), (20, 20)])] 1 50 = some [(20, 20)]) ∧
    (rebuild 50 previous [(40, 0), (10, 0), (50, 0), (20, 0), (30, 0)]
        = some [((0, 0), [(40, 0), (10, 0), (20, 0), (30, 0)]), ((1, 0), [(50, 0)])] ∧
      findKNearest (0, 0)
        [((0, 0), [(40, 0), (10, 0), (20, 0), (30, 0)]), ((1, 0), [(50, 0)])] 2 50
          = some [(10, 0), (20, 0)]) := by
  have hfresh : ∀ l : List Vector2f, rebuild 50 previous l = rebuild 50 [] l :=
    fun _ => rfl
  refine ⟨⟨neighborsFrom point cell grid k, ?_,
    neighborsFrom_exact point cell cellSize previous grid positions k hgrid hk hint hx hy
      hnear hcount⟩,
    ⟨by rw [hfresh]; decide!, by decide!⟩, ⟨by rw [hfresh]; decide!, by decide!⟩⟩
  simp only [findKNearest, hcell, Option.map_some']

theorem findKNearest_exact_witness :
    (0 : ℚ) < 50 ∧ (1 : Int) ≤ 2 ∧ (2 : Int) < 2 ^ 31 ∧
    rebuild 50 [] [(10, 10), (60, 10), (20, 10), (10, -30), (15, 10)]
      = some [((0, 0), [(10, 10), (20, 10), (15, 10)]), ((1, 0), [(60, 10)]),
          ((0, -1), [(10, -30)])] ∧
    findKNearest (10, 10)
      [((0, 0), [(10, 10), (20, 10), (15, 10)]), ((1, 0), [(60, 10)]),
        ((0, -1), [(10, -30)])] 2 50 = some [(15, 10), (20, 10)] ∧
    ∃ result, findKNearest (10, 10)
      [((0, 0), [(10, 10), (20, 10), (15, 10)]), ((1, 0), [(60, 10)]),
        ((0, -1), [(10, -30)])] 2 50 = some result ∧ (result.length : Int) = 2 := by
  obtain ⟨result, h1, h2, -⟩ := (findKNearest_exact (10, 10) (0, 0) 50 []
    [((0, 0), [(10, 10), (20, 10), (15, 10)]), ((1, 0), [(60, 10)]), ((0, -1), [(10, -30)])]
    [(10, 10), (60, 10), (20, 10), (10, -30), (15, 10)] 2
    (by norm_num) (by decide) (by decide) (by decide!) (by decide!) (by decide) (by decide)
    (by decide!) (by decide!)).1
  exact ⟨by norm_num, by decide, by decide, by decide!, by decide!, result, h1, h2⟩

/-- C4 (as stated) fails: with the entities `(1, 2 ^ (-13))` and `(1, 0)` in the cell of
the query point `(0, 0)`, cell size 50 and `k = 1`, both computed distances are the float
1 and `findKNearest` returns `[(1, 2 ^ (-13))]`, while the stored position `(1, 0)`, which
is not in the result, is strictly closer in Euclidean distance. -/
theorem findKNearest_exact_counterexample :
    (0 : ℚ) < 50 ∧ (1 : Int) ≤ 1 ∧
    rebuild 50 [] [(1, 1 / 2 ^ 13), (1, 0)] = some [((0, 0), [(1, 1 / 2 ^ 13), (1, 0)])] ∧
    getCell (0, 0) 50 = some (0, 0) ∧ getCell (1, 1 / 2 ^ 13) 50 = some (0, 0) ∧
    getCell (1, 0) 50 = some (0, 0) ∧
    (1 : Int) ≤ (([((1, 1 / 2 ^ 13) : Vector2f), (1, 0)].filter
      (fun q => decide (q ≠ ((0, 0) : Vector2f)))).length : Int) ∧
    findKNearest (0, 0) [((0, 0), [(1, 1 / 2 ^ 13), (1, 0)])] 1 50
      = some [(1, 1 / 2 ^ 13)] ∧
    ((1, 0) : Vector2f) ∉ [((1, 1 / 2 ^ 13) : Vector2f)] ∧
    Real.sqrt ((euclideanSq (1, 0) (0, 0) : ℚ) : ℝ) <
      Real.sqrt ((euclideanSq (1, 1 / 2 ^ 13) (0, 0) : ℚ) : ℝ) := by
  refine ⟨by norm_num, by decide, by decide!, by decide!, by decide!, by decide!, by decide!,
    by decide!, by decide!, ?_⟩
  apply Real.sqrt_lt_sqrt
  · norm_num [euclideanSq]
  · norm_num [euclideanSq]

/-- C5: at the claim's own witness (entities `(10, 10)` and `(20, 20)`, cell size 50,
`k = 3`, query `(10, 10)`) the grid has one occupied cell, the only radius scanned is 1,
its square holds the candidate `(20, 20)`, and `findKNearest` returns the empty sequence:
the candidates are cleared at the end of the last iteration. -/
theorem findKNearest_cap_discards_candidates :
    rebuild 50 [] [(10, 10), (20, 20)] = some [((0, 0), [(10, 10), (20, 20)])] ∧
    Grid.size [((0, 0), [(10, 10), (20, 20)])] = 1 ∧
    getCell (10, 10) 50 = some (0, 0) ∧
    scanSquare (10, 10) (0, 0) [((0, 0), [(10, 10), (20, 20)])] 1 [] = [(20, 20)] ∧
    toSizeT 3 = 3 ∧
    findKNearest (10, 10) [((0, 0), [(10, 10), (20, 20)])] 3 50 = some [] := by
  refine ⟨by decide!, by decide, by decide!, by decide!, by decide, ?_⟩
  have hcell : getCell (10, 10) 50 = some (0, 0) := by decide!
  simp only [findKNearest, hcell, Option.map_some', Option.some.injEq]
  apply neighborsFrom_cap_empty
  intro s hs hcap
  have hsize : Grid.size [((0, 0), [((10, 10) : Vector2f), (20, 20)])] = 1 := by decide
  rw [hsize] at hcap
  have hs1 : s = 1 := by
    have : s ≤ s * s := Nat.le_mul_self s
    omega
  subst hs1
  have hscan : scanSquare (10, 10) (0, 0) [((0, 0), [(10, 10), (20, 20)])] 1 []
      = [(20, 20)] := by decide!
  rw [hscan]
  decide

/-- C6 (amended): `findKNearest` checks no precondition and has no error path. With an
`int k < 0` the tests against `neighbors.size()` see `k` converted to `size_t`, and the
call returns what a call with any `k' ≥ 0` larger than every scan's candidate count
returns. With a negative cell size the cells are the floors of the rounded quotients by
that size and, under the hypotheses of C4, the call returns the `k` stored positions
nearest to the query point. With cell size zero the quotient is infinite or NaN, its
conversion to `int` is undefined, and no result is defined. -/
theorem findKNearest_unchecked (point : Vector2f) (grid : Grid) (k : Int) (cellSize : ℚ) :
    (k < 0 → -2 ^ 31 ≤ k → ∀ k' : Int, 0 ≤ k' → k' < 2 ^ 63 →
      (∀ (cell : Cell) (s : Nat), getCell point cellSize = some cell → 1 ≤ s →
        s * s ≤ grid.size → ((scanSquare point cell grid s []).length : Int) < k') →
      findKNearest point grid k cellSize = findKNearest point grid k' cellSize) ∧
    (cellSize < 0 → 1 ≤ k → k < 2 ^ 31 →
      ∀ (cell : Cell) (previous : Grid) (positions : List Vector2f),
        rebuild cellSize previous positions = some grid →
        getCell point cellSize = some cell →
        |cell.1| + 1 ≤ 2 ^ 24 → |cell.2| + 1 ≤ 2 ^ 24 →
        (∀ q ∈ positions, ∃ c, getCell q cellSize = some c ∧
          |c.1 - cell.1| ≤ 1 ∧ |c.2 - cell.2| ≤ 1) →
        k ≤ ((positions.filter (fun q => decide (q ≠ point))).length : Int) →
        ∃ result, findKNearest point grid k cellSize = some result ∧
          (result.length : Int) = k ∧
          (∀ q ∈ result, q ∈ positions ∧ q ≠ point) ∧
          result.Pairwise (fun a b => F32.le (distance a point) (distance b point) = true) ∧
          (∃ others : List Vector2f,
            (result ++ others).Perm (positions.filter (fun q => decide (q ≠ point))) ∧
            ∀ a ∈ result, ∀ q ∈ others,
              F32.le (distance a point) (distance q point) = true)) ∧
    (cellSize = 0 → getCell point cellSize = none ∧
      findKNearest point grid k cellSize = none) := by
  refine ⟨?_, ?_, ?_⟩
  · intro hk hlo k' hk0 hk63 hshort
    cases hcell : getCell point cellSize with
    | none => simp only [findKNearest, hcell, Option.map_none']
    | some cell =>
      simp only [findKNearest, hcell, Option.map_some', Option.some.injEq]
      have hneg := toSizeT_neg k hk hlo
      have hpos := toSizeT_of_int k' hk0 hk63
      rw [neighborsFrom_cap_empty point cell grid k, neighborsFrom_cap_empty point cell grid k']
      · intro s hs hcap
        have := hshort cell s hcell hs hcap
        omega
      · intro s hs hcap
        have := hshort cell s hcell hs hcap
        omega
  · intro _ hk hint cell previous positions hgrid hcell hx hy hnear hcount
    refine ⟨neighborsFrom point cell grid k, ?_,
      neighborsFrom_exact point cell cellSize previous grid positions k hgrid hk hint hx hy
        hnear hcount⟩
    simp only [findKNearest, hcell, Option.map_some']
  · intro h0
    subst h0
    have h : ∀ x : ℚ, cellCoordinate x 0 = none := by
      intro x
      simp only [cellCoordinate, F32.div, if_true]
      split <;> simp [F32.floor, F32.toInt]
    have hcell : getCell point 0 = none := by
      simp only [getCell, h]
    exact ⟨hcell, by simp only [findKNearest, hcell, Option.map_none']⟩

theorem findKNearest_unchecked_witness :
    ((-50 : ℚ) < 0 ∧ (1 : Int) ≤ 1 ∧ (1 : Int) < 2 ^ 31) ∧
    rebuild (-50) [] [(10, 10), (20, 20)] = some [((-1, -1), [(10, 10), (20, 20)])] ∧
    findKNearest (10, 10) [((-1, -1), [(10, 10), (20, 20)])] 1 (-50) = some [(20, 20)] ∧
    (∃ result, findKNearest (10, 10) [((-1, -1), [(10, 10), (20, 20)])] 1 (-50)
      = some result ∧ (result.length : Int) = 1) ∧
    findKNearest (10, 10) [((0, 0), [(10, 10), (20, 20)])] (-1) 50 =
      findKNearest (10, 10) [((0, 0), [(10, 10), (20, 20)])] 3 50 := by
  have h := findKNearest_unchecked (10, 10) [((-1, -1), [(10, 10), (20, 20)])] 1 (-50)
  obtain ⟨result, h1, h2, -⟩ := h.2.1 (by norm_num) (by decide) (by decide) (-1, -1) []
    [(10, 10), (20, 20)] (by decide!) (by decide!) (by decide) (by decide) (by decide!)
    (by decide!)
  exact ⟨⟨by norm_num, by decide, by decide⟩, by decide!, by decide!, ⟨result, h1, h2⟩,
    by decide!⟩

/-- C6 (as stated) fails: with `k = -1` the call returns the empty sequence, and with
cell size `-50` it returns the neighbour `[(20, 20)]`; both calls return normally. -/
theorem findKNearest_unchecked_counterexample :
    findKNearest (10, 10) [((0, 0), [(10, 10), (20, 20)])] (-1) 50 = some [] ∧
    rebuild (-50) [] [(10, 10), (20, 20)] = some [((-1, -1), [(10, 10), (20, 20)])] ∧
    findKNearest (10, 10) [((-1, -1), [(10, 10), (20, 20)])] 1 (-50) = some [(20, 20)] :=
  ⟨by decide!, by decide!, by decide!⟩

end SpatialHash
